import Mathlib

/-!
# Zoomable treemap (`src/js/views/treemap.js`)

A shallow embedding of the layout-and-navigation code of the treemap view.

* JavaScript numbers are exact rationals (`ℚ`): arithmetic does not round. Where the
  code can divide by zero the numbers have their infinities, NaN and negative zero
  (`JsNumber`).
* A raw record is `{ name, value?, children? }`; an absent `children` and an empty one
  are both the empty list, as `d3.hierarchy` treats them alike.
* Object references to hierarchy nodes are paths from the root (`Path`): the child
  indices to follow. `d === globalRoot` is `p = []`, `d.parent` is `p.dropLast`.
* The d3 functions the source calls (`d3.hierarchy`, `node.sum`, `node.sort`,
  `d3.descending`, `d3.treemap`, `d3.treemapSquarify`, `d3.scaleLinear`) are embedded
  after the d3 library, definition by definition, under their d3 names.
* A state is what the page holds once the synchronous code of an event has run; the
  transitions that `zoom` starts (750 ms) are not part of it. Where a call throws, the
  state is what the statements before the throw have made of it.
-/

namespace Treemap

/-! ## Data model -/

/-- A raw record of `data/treedata.json`: `{ name, value?, children? }`. -/
inductive RawRecord where
  | mk (name : String) (value : Option ℚ) (children : List RawRecord)

namespace RawRecord

/-- The `name` field. -/
def name : RawRecord → String
  | mk n _ _ => n

/-- The `value` field, `none` when the record has none. -/
def value : RawRecord → Option ℚ
  | mk _ v _ => v

/-- The `children` field, `[]` when the record has none. -/
def children : RawRecord → List RawRecord
  | mk _ _ cs => cs

end RawRecord

/-- A bounding rectangle `{x0, y0, x1, y1}` in layout units. -/
structure Rect where
  x0 : ℚ
  y0 : ℚ
  x1 : ℚ
  y1 : ℚ
deriving DecidableEq

/-- The area `(x1 - x0) * (y1 - y0)` of a rectangle. -/
def Rect.area (r : Rect) : ℚ := (r.x1 - r.x0) * (r.y1 - r.y0)

/-- A node of the d3 hierarchy: the record it wraps (`data`), its `depth`, its `value`,
its `children` (`[]` for a leaf, where d3 leaves the field undefined) and its layout box
`x0, y0, x1, y1` (`none` until `d3.treemap` has assigned it). -/
inductive Node where
  | mk (data : RawRecord) (depth : Nat) (value : ℚ) (children : List Node) (box : Option Rect)

namespace Node

/-- The record the node wraps. -/
def data : Node → RawRecord
  | mk d _ _ _ _ => d

/-- The depth of the node, `0` at the root. -/
def depth : Node → Nat
  | mk _ k _ _ _ => k

/-- The aggregated value of the node. -/
def value : Node → ℚ
  | mk _ _ v _ _ => v

/-- The children of the node. -/
def children : Node → List Node
  | mk _ _ _ cs _ => cs

/-- The layout box of the node, `none` while it has not been laid out. -/
def box : Node → Option Rect
  | mk _ _ _ _ b => b

end Node

/-- A reference to a node: the child indices to follow from the root. -/
abbrev Path := List Nat

/-! ## `d3.hierarchy(data)` -/

mutual
/-- The function `d3.hierarchy(data)`: one node per record, `depth` one more than the parent's,
children in the record's order. `value` is set by `sum` (0 stands for d3's undefined
here) and the box by `treemap`. -/
def hierarchy : RawRecord → Nat → Node
  | .mk n v cs, k => .mk (.mk n v cs) k 0 (hierarchyList cs (k + 1)) none
/-- The children of a `hierarchy` node, built from the record's children. -/
def hierarchyList : List RawRecord → Nat → List Node
  | [], _ => []
  | c :: cs, k => hierarchy c k :: hierarchyList cs k
end

/-! ## `node.sum(d => d.value)` -/

/-- The accessor `+value(node.data) || 0` of `sum` for `d => d.value`: the record's own
value, `0` when it has none. -/
def ownValue (d : RawRecord) : ℚ := d.value.getD 0

mutual
/-- The method `node.sum(d => d.value)`: in post-order, each node's value becomes its record's
own value (or 0) plus the values of its children. -/
def Node.sum : Node → Node
  | .mk d k _ cs b => .mk d k (ownValue d + ((sumList cs).map Node.value).sum) (sumList cs) b
/-- The method `sum` over a list of children. -/
def sumList : List Node → List Node
  | [] => []
  | c :: cs => c.sum :: sumList cs
end

/-! ## `node.sort((a, b) => d3.descending(a.value, b.value))` -/

/-- The comparator `d3.descending(a, b)`: `-1` if `b < a`, `1` if `b > a`, else `0`. -/
def descending (a b : ℚ) : Int :=
  if b < a then -1 else if b > a then 1 else 0

/-- The comparator passed to `sort` in `plotTreeMap`. -/
def compareNodes (a b : Node) : Int := descending a.value b.value

/-- The method `Array.prototype.sort(compare)`: a stable sort, `a` staying before `b` when
`compare(a, b) ≤ 0`. Stability fixes the result, computed here by insertion. -/
def arraySort {α : Type} (compare : α → α → Int) (l : List α) : List α :=
  l.insertionSort (fun a b => compare a b ≤ 0)

mutual
/-- The method `node.sort(compare)`: every node's children are sorted with `compare`. The
comparator reads `value` only, which sorting the descendants leaves as it is, so the
children are sorted after their own subtrees here (d3 sorts them before). -/
def Node.sort : Node → Node
  | .mk d k v cs b => .mk d k v (arraySort compareNodes (sortList cs)) b
/-- The method `sort` over a list of children (the list itself is left in order). -/
def sortList : List Node → List Node
  | [] => []
  | c :: cs => c.sort :: sortList cs
end

/-! ## `d3.treemap().tile(d3.treemapSquarify).size([width, height]).padding(0)` -/

/-- The loop of `treemapDice`: the nodes of a row side by side from `x0` on, each
`node.value * k` wide, all spanning `y0 .. y1`. -/
def diceBoxes (k y0 y1 : ℚ) : ℚ → List ℚ → List Rect
  | _, [] => []
  | x0, v :: vs => ⟨x0, y0, x0 + v * k, y1⟩ :: diceBoxes k y0 y1 (x0 + v * k) vs

/-- The function `treemapDice(parent, x0, y0, x1, y1)` on the values of `parent.children`, with
`k = parent.value && (x1 - x0) / parent.value`. -/
def treemapDice (nodes : List ℚ) (value x0 y0 x1 y1 : ℚ) : List Rect :=
  diceBoxes (if value = 0 then 0 else (x1 - x0) / value) y0 y1 x0 nodes

/-- The loop of `treemapSlice`: the nodes of a column one below the other from `y0` on,
each `node.value * k` high, all spanning `x0 .. x1`. -/
def sliceBoxes (k x0 x1 : ℚ) : ℚ → List ℚ → List Rect
  | _, [] => []
  | y0, v :: vs => ⟨x0, y0, x1, y0 + v * k⟩ :: sliceBoxes k x0 x1 (y0 + v * k) vs

/-- The function `treemapSlice(parent, x0, y0, x1, y1)` on the values of `parent.children`, with
`k = parent.value && (y1 - y0) / parent.value`. -/
def treemapSlice (nodes : List ℚ) (value x0 y0 x1 y1 : ℚ) : List Rect :=
  sliceBoxes (if value = 0 then 0 else (y1 - y0) / value) x0 x1 y0 nodes

/-- The golden ratio `(1 + Math.sqrt(5)) / 2` as the double that JavaScript computes. -/
def phi : ℚ := 910872158600853 / 562949953421312

/-- A JavaScript number where `squarifyRatio` may divide by zero (`alpha`, `beta` and the
aspect ratios): a rational, the negative zero, an infinity or NaN. `fin 0` is the
positive zero. -/
inductive JsNumber where
  | fin (q : ℚ)
  | negZero
  | posInf
  | negInf
  | nan
deriving DecidableEq

namespace JsNumber

/-- The sign bit of a number that is not NaN. -/
def negative : JsNumber → Bool
  | fin q => decide (q < 0)
  | negZero => true
  | posInf => false
  | negInf => true
  | nan => false

/-- Whether the number is one of the two zeros. -/
def isZero : JsNumber → Bool
  | fin q => decide (q = 0)
  | negZero => true
  | _ => false

/-- Whether the number is one of the two infinities. -/
def isInf : JsNumber → Bool
  | posInf => true
  | negInf => true
  | _ => false

/-- Whether the number is NaN. -/
def isNaN : JsNumber → Bool
  | nan => true
  | _ => false

/-- The rational a finite number stands for (0 for both zeros). -/
def toRat : JsNumber → ℚ
  | fin q => q
  | _ => 0

/-- The zero with the given sign bit. -/
def zero (neg : Bool) : JsNumber := if neg then negZero else fin 0

/-- The infinity with the given sign bit. -/
def inf (neg : Bool) : JsNumber := if neg then negInf else posInf

/-- The product `a * b`. -/
def mul (a b : JsNumber) : JsNumber :=
  if a.isNaN || b.isNaN then nan
  else if (a.isZero && b.isInf) || (a.isInf && b.isZero) then nan
  else if a.isInf || b.isInf then inf (xor a.negative b.negative)
  else if a.isZero || b.isZero then zero (xor a.negative b.negative)
  else fin (a.toRat * b.toRat)

/-- The quotient `a / b`. -/
def div (a b : JsNumber) : JsNumber :=
  if a.isNaN || b.isNaN then nan
  else if (a.isZero && b.isZero) || (a.isInf && b.isInf) then nan
  else if a.isInf || b.isZero then inf (xor a.negative b.negative)
  else if a.isZero || b.isInf then zero (xor a.negative b.negative)
  else fin (a.toRat / b.toRat)

/-- The comparison `a > b`, false when either is NaN. -/
def gt : JsNumber → JsNumber → Bool
  | nan, _ => false
  | _, nan => false
  | posInf, posInf => false
  | posInf, _ => true
  | _, posInf => false
  | negInf, _ => false
  | _, negInf => true
  | a, b => decide (b.toRat < a.toRat)

/-- The function `Math.max(a, b)`: NaN when either is NaN, the positive zero of the two zeros. -/
def max (a b : JsNumber) : JsNumber :=
  if a.isNaN || b.isNaN then nan
  else if gt a b then a
  else if gt b a then b
  else if a.negative then b else a

end JsNumber

/-- The loop `do sumValue = nodes[i1++].value; while (!sumValue && i1 < n)` of
`squarifyRatio`, from `i1 = i0`: the nodes taken, the last value read, the nodes left. -/
def firstNonEmpty : List ℚ → List ℚ × ℚ × List ℚ
  | [] => ([], 0, [])
  | v :: vs =>
    if v = 0 ∧ vs ≠ [] then
      ((v :: (firstNonEmpty vs).1), (firstNonEmpty vs).2.1, (firstNonEmpty vs).2.2)
    else ([v], v, vs)

/-- The loop `for (; i1 < n; ++i1)` of `squarifyRatio`, which adds nodes to the row while
the worst aspect ratio does not get worse: the nodes added, the row's `sumValue`, the
nodes left. -/
def growRow (alpha : JsNumber) : ℚ → ℚ → ℚ → JsNumber → List ℚ → List ℚ × ℚ × List ℚ
  | sumValue, _, _, _, [] => ([], sumValue, [])
  | sumValue, minValue, maxValue, minRatio, nodeValue :: rest =>
    let sumValue1 := sumValue + nodeValue
    let minValue1 := if nodeValue < minValue then nodeValue else minValue
    let maxValue1 := if nodeValue > maxValue then nodeValue else maxValue
    let beta := JsNumber.mul (.fin (sumValue1 * sumValue1)) alpha
    let newRatio := JsNumber.max (JsNumber.div (.fin maxValue1) beta)
      (JsNumber.div beta (.fin minValue1))
    if JsNumber.gt newRatio minRatio then ([], sumValue1 - nodeValue, nodeValue :: rest)
    else
      ((nodeValue :: (growRow alpha sumValue1 minValue1 maxValue1 newRatio rest).1),
        (growRow alpha sumValue1 minValue1 maxValue1 newRatio rest).2.1,
        (growRow alpha sumValue1 minValue1 maxValue1 newRatio rest).2.2)

/-- The function `squarifyRatio(ratio, parent, x0, y0, x1, y1)` on the values of
`parent.children` and `value = parent.value`: the boxes of the children, in order. The
first argument bounds the passes of `while (i0 < n)`; each pass takes at least one node,
so `n` passes lay out all of them. The strip of a row ends at
`value ? y0 += dy * sumValue / value : y1` (or the same in `x`), which moves `y0` for the
next pass only when `value` is not 0. Only `alpha`, `beta` and the aspect ratios can be a
quotient by zero; they are JavaScript numbers with their infinities and NaN. -/
def squarifyRatio (aspect : ℚ) : Nat → List ℚ → ℚ → ℚ → ℚ → ℚ → ℚ → List Rect
  | 0, _, _, _, _, _, _ => []
  | _ + 1, [], _, _, _, _, _ => []
  | fuel + 1, node :: nodes, value, x0, y0, x1, y1 =>
    let dx := x1 - x0
    let dy := y1 - y0
    let first := firstNonEmpty (node :: nodes)
    let alpha := JsNumber.div (JsNumber.max (JsNumber.div (.fin dy) (.fin dx))
      (JsNumber.div (.fin dx) (.fin dy))) (.fin (value * aspect))
    let beta := JsNumber.mul (.fin (first.2.1 * first.2.1)) alpha
    let minRatio := JsNumber.max (JsNumber.div (.fin first.2.1) beta)
      (JsNumber.div beta (.fin first.2.1))
    let grown := growRow alpha first.2.1 first.2.1 first.2.1 minRatio first.2.2
    let row := first.1 ++ grown.1
    let sumValue := grown.2.1
    if dx < dy then
      treemapDice row sumValue x0 y0 x1 (if value = 0 then y1 else y0 + dy * sumValue / value)
        ++ squarifyRatio aspect fuel grown.2.2 (value - sumValue) x0
          (if value = 0 then y0 else y0 + dy * sumValue / value) x1 y1
    else
      treemapSlice row sumValue x0 y0 (if value = 0 then x1 else x0 + dx * sumValue / value) y1
        ++ squarifyRatio aspect fuel grown.2.2 (value - sumValue)
          (if value = 0 then x0 else x0 + dx * sumValue / value) y0 x1 y1

/-- The tiling method `d3.treemapSquarify` (ratio `phi`) for the children of one node. -/
def treemapSquarify (nodes : List ℚ) (value : ℚ) (r : Rect) : List Rect :=
  squarifyRatio phi nodes.length nodes value r.x0 r.y0 r.x1 r.y1

/-- The two lines `if (x1 < x0) x0 = x1 = (x0 + x1) / 2; if (y1 < y0) y0 = y1 = (y0 + y1) / 2`
of `positionNode`. -/
def collapse : Rect → Rect
  | ⟨x0, y0, x1, y1⟩ =>
    ⟨if x1 < x0 then (x0 + x1) / 2 else x0, if y1 < y0 then (y0 + y1) / 2 else y0,
      if x1 < x0 then (x0 + x1) / 2 else x1, if y1 < y0 then (y0 + y1) / 2 else y1⟩

mutual
/-- The function `positionNode` of `d3.treemap` at padding 0, applied in pre-order
(`root.eachBefore(positionNode)`): the node keeps the box `r` it was given by its parent's
tiling (collapsed if inverted), and its children are tiled into that box. -/
def positionNode : Node → Rect → Node
  | .mk d k v cs _, r =>
    .mk d k v
      (positionList cs (treemapSquarify (cs.map Node.value) v (collapse (collapse r))))
      (some (collapse r))
/-- The function `positionNode` over the children of a node and the boxes tiled for them. -/
def positionList : List Node → List Rect → List Node
  | [], _ => []
  | c :: cs, [] => c :: positionList cs []
  | c :: cs, r :: rs => positionNode c r :: positionList cs rs
end

/-- The layout `d3.treemap().tile(d3.treemapSquarify).size([dx, dy]).padding(0)` applied to `root`:
the root's box is `[0, dx] × [0, dy]` and every node below is positioned. -/
def treemap (dx dy : ℚ) (root : Node) : Node :=
  positionNode root ⟨0, 0, dx, dy⟩

/-! ## The view: `plotTreeMap`, `render`, `zoom`, `resetZoom` -/

/-- The constant `width` of `plotTreeMap`. -/
def width : ℚ := 1600

/-- The constant `height` of `plotTreeMap`. -/
def height : ℚ := 680

/-- A mapper `d3.scaleLinear().domain([..]).rangeRound([..])`: its domain and its pixel
range. -/
structure Scale where
  domain : ℚ × ℚ
  range : ℚ × ℚ
deriving DecidableEq

namespace Node

/-- The descendant a path leads to from this node, if there is one. -/
def descendant? : Node → Path → Option Node
  | n, [] => some n
  | n, i :: p =>
    match n.children.get? i with
    | some c => c.descendant? p
    | none => none

/-- The box as `zoom` reads it. Every node that `plotTreeMap` hands to `zoom` has been
laid out; the rectangle at the origin stands for the undefined fields of one that has
not. -/
def rect (n : Node) : Rect := n.box.getD ⟨0, 0, 0, 0⟩

/-- The field `x0`. -/
def x0 (n : Node) : ℚ := n.rect.x0

/-- The field `y0`. -/
def y0 (n : Node) : ℚ := n.rect.y0

/-- The field `x1`. -/
def x1 (n : Node) : ℚ := n.rect.x1

/-- The field `y1`. -/
def y1 (n : Node) : ℚ := n.rect.y1

end Node

/-- The state of the page that the treemap view owns, once `plotTreeMap` has run:
`globalRoot` (set together with `globalZoomFunction`), the mappers `x` and `y` of the
running `plotTreeMap` call, the node whose children the layer `group` shows (`none`
while `let group` has not been initialised, its `render` having thrown), whether that
layer takes pointer events, the text the script wrote to `#header` (`none` while it
wrote none) and the number of `resize` listeners registered on `window`. -/
structure View where
  globalRoot : Node
  x : Scale
  y : Scale
  group : Option Path
  pointerEvents : Bool
  header : Option String
  listeners : Nat

/-- One `g` element of a layer: the node bound to it and whether `render` gave it the
pointer cursor and the click handler `(event, d) => zoom(d)`. -/
structure Element where
  datum : Path
  pointer : Bool
deriving DecidableEq

/-- The elements of `render(group, d)`: one per child of `d` (`.data(d.children).join("g")`),
with the click handler on those that pass `node.filter(d => d.children)`. `none` when
`render` throws: `d.children` of a node without children is undefined, and d3 raises a
TypeError on `.data(undefined)`. -/
def render (root : Node) (d : Path) : Option (List Element) :=
  match root.descendant? d with
  | none => none
  | some n =>
    if n.children.isEmpty then none
    else some (n.children.enum.map fun ic => ⟨d ++ [ic.1], !ic.2.children.isEmpty⟩)

/-- The function `plotTreeMap(data)`, run on the page state `page` (`none` before the first run):
fresh mappers over the canvas, the hierarchy built, summed, sorted and laid out, the
globals set, the root's children rendered into `group`, and one more `resize` listener.
When `render` throws, `group` stays uninitialised and the listener is not reached. -/
def plotTreeMap (data : RawRecord) (page : Option View) : View :=
  match render (treemap width height (hierarchy data 0).sum.sort) [] with
  | none =>
    View.mk (treemap width height (hierarchy data 0).sum.sort)
      ⟨(0, width), (0, width)⟩ ⟨(0, height), (0, height)⟩ none false
      (page.bind View.header) ((page.map View.listeners).getD 0)
  | some _ =>
    View.mk (treemap width height (hierarchy data 0).sum.sort)
      ⟨(0, width), (0, width)⟩ ⟨(0, height), (0, height)⟩ (some []) true
      (page.bind View.header) ((page.map View.listeners).getD 0 + 1)

/-- The text `zoom(d)` writes to `#header`. -/
def headerText (d : Path) (n : Node) : String :=
  if d = [] then "NYT Archive | All Sections" else "Back to All Sections |  " ++ n.data.name

/-- The function `zoom(d)`: the header is rewritten; the old layer stops taking pointer events
(a ReferenceError ends the call here while `group` is uninitialised); the children of
`d` are rendered into a new layer with the mappers as they are (a TypeError ends the
call here when `d` has no children); the new layer becomes `group`; and then both
domains are set to the box of `d`. -/
def zoom (s : View) (d : Path) : View :=
  match s.globalRoot.descendant? d with
  | none => s
  | some n =>
    match s.group, render s.globalRoot d with
    | none, _ =>
      View.mk s.globalRoot s.x s.y none s.pointerEvents (some (headerText d n)) s.listeners
    | some p, none =>
      View.mk s.globalRoot s.x s.y (some p) false (some (headerText d n)) s.listeners
    | some _, some _ =>
      View.mk s.globalRoot ⟨(n.x0, n.x1), s.x.range⟩ ⟨(n.y0, n.y1), s.y.range⟩ (some d) true
        (some (headerText d n)) s.listeners

/-- The function `resetZoom()`: `if (globalRoot && globalZoomFunction) globalZoomFunction(globalRoot)`. -/
def resetZoom : Option View → Option View
  | none => none
  | some s => some (zoom s [])

/-- The elements of the layer `group`, those a pointer event can reach. -/
def layer (s : View) : List Element :=
  match s.group with
  | none => []
  | some p => if s.pointerEvents then (render s.globalRoot p).getD [] else []

/-- A click on the `i`-th element of the current layer: its handler runs if it has one. -/
def click (s : View) (i : Nat) : View :=
  match (layer s).get? i with
  | some e => if e.pointer then zoom s e.datum else s
  | none => s

/-- The events the view reacts to after `initTreemap`. -/
inductive Event where
  | click (i : Nat)
  | back
  | resize

/-- The listeners of one `resize` event: each of the `n` that were registered when the
event was dispatched runs `plotTreeMap(data)`. -/
def resizeAll (data : RawRecord) : Nat → Option View → Option View
  | 0, page => page
  | n + 1, page => resizeAll data n (some (plotTreeMap data page))

/-- The reaction of the page to one event. -/
def step (data : RawRecord) (page : Option View) : Event → Option View
  | .click i => page.map fun s => click s i
  | .back => resetZoom page
  | .resize => resizeAll data ((page.map View.listeners).getD 0) page

/-- The function `initTreemap`, once `d3.json` has delivered `data`: `plotTreeMap(data)`. -/
def initTreemap (data : RawRecord) : Option View := some (plotTreeMap data none)

/-- The page after `initTreemap` and a sequence of events. -/
def run (data : RawRecord) (events : List Event) : Option View :=
  events.foldl (step data) (initTreemap data)

/-! ## Pixels: the mappers applied, `position`, and the steps of `zoom` -/

/-- The function `Math.round(v)`: the nearest integer, a half rounded up. -/
def mathRound (v : ℚ) : ℚ := ((⌊v + 1 / 2⌋ : ℤ) : ℚ)

/-- The function `normalize(a, b)` of d3's continuous scales, applied to `v`: `(v - a) / (b - a)`, and
the constant 0.5 when `b - a` is 0. -/
def normalize (a b v : ℚ) : ℚ := if b - a = 0 then 1 / 2 else (v - a) / (b - a)

/-- The function `interpolateRound(a, b)` applied to `t`: `Math.round(a * (1 - t) + b * t)`. -/
def interpolateRound (a b t : ℚ) : ℚ := mathRound (a * (1 - t) + b * t)

/-- The mapper applied to `v`, as `x(v)` and `y(v)` in `position` (d3's `bimap`, no clamping):
the domain is normalised and the pixel range interpolated with rounding, both taken the
other way round when the domain is descending. -/
def Scale.apply (s : Scale) (v : ℚ) : ℚ :=
  if s.domain.2 < s.domain.1 then
    interpolateRound s.range.2 s.range.1 (normalize s.domain.2 s.domain.1 v)
  else interpolateRound s.range.1 s.range.2 (normalize s.domain.1 s.domain.2 v)

/-- The attributes `position` gives the element of a node: the offsets of
`translate(x(d.x0), y(d.y0))` on the `g`, and the `width` and `height` of its `rect` and
`foreignObject`. -/
structure PixelBox where
  left : ℚ
  top : ℚ
  width : ℚ
  height : ℚ
deriving DecidableEq

/-- The function `position(group, root)` on one element of the group, with the mappers `x` and `y`
as they are at the time of the call. -/
def position (x y : Scale) (d : Node) : PixelBox :=
  ⟨x.apply d.x0, y.apply d.y0, max 0 (x.apply d.x1 - x.apply d.x0),
    max 0 (y.apply d.y1 - y.apply d.y0)⟩

/-- The state of `zoom(d)` once `group1 = group = svg.insert("g", "*").call(render, d)` has
run, before lines 132 and 133 change the domains; `none` when the call does not get
there. -/
def rendered (s : View) (d : Path) : Option View :=
  match s.globalRoot.descendant? d, s.group, render s.globalRoot d with
  | some n, some _, some _ =>
    some (View.mk s.globalRoot s.x s.y (some d) true (some (headerText d n)) s.listeners)
  | _, _, _ => none

/-- The two lines `x.domain([d.x0, d.x1]); y.domain([d.y0, d.y1])` of `zoom(d)`. -/
def retarget (s : View) (n : Node) : View :=
  View.mk s.globalRoot ⟨(n.x0, n.x1), s.x.range⟩ ⟨(n.y0, n.y1), s.y.range⟩ s.group
    s.pointerEvents s.header s.listeners

/-- The attributes of the elements of the layer `group`, as `position` computes them
with the mappers of the state: `render` ends with `position(group, root)`, and the
transition of `zoom` runs to `position` under the mappers it has set. -/
def shown (s : View) : Option (List PixelBox) :=
  match s.group with
  | none => none
  | some p => (s.globalRoot.descendant? p).map fun g => g.children.map (position s.x s.y)

/-- The reaction of the page to a resize of the window to `viewport`: the listeners are
`() => { plotTreeMap(data); }`, which read neither the event nor the window. -/
def resizeTo (data : RawRecord) (_viewport : ℚ × ℚ) (page : Option View) : Option View :=
  step data page .resize

/-! ## Notions the properties are stated with -/

/-- The node itself and all its descendants. -/
def Node.nodes : Node → List Node
  | .mk d k v cs b => .mk d k v cs b :: nodesList cs
where
  /-- The nodes of a list of subtrees. -/
  nodesList : List Node → List Node
    | [] => []
    | c :: cs => c.nodes ++ nodesList cs

/-- The record itself and all the records below it. -/
def RawRecord.records : RawRecord → List RawRecord
  | .mk n v cs => .mk n v cs :: recordsList cs
where
  /-- The records of a list of subtrees. -/
  recordsList : List RawRecord → List RawRecord
    | [] => []
    | c :: cs => c.records ++ recordsList cs

/-- The node that lines 47 to 51 of `plotTreeMap` build for a record met at depth `k`:
`d3.hierarchy(..).sum(..).sort(..)`. -/
def buildNode (d : RawRecord) (k : Nat) : Node := (hierarchy d k).sum.sort

/-- A rectangle whose corners are in order. -/
def Rect.Proper (r : Rect) : Prop := r.x0 ≤ r.x1 ∧ r.y0 ≤ r.y1

/-- The rectangle `a` lies inside the rectangle `b`. -/
def Rect.Inside (a b : Rect) : Prop :=
  b.x0 ≤ a.x0 ∧ a.x1 ≤ b.x1 ∧ b.y0 ≤ a.y0 ∧ a.y1 ≤ b.y1

/-- The point `(px, py)` lies in the interior of the rectangle. -/
def Rect.Interior (r : Rect) (px py : ℚ) : Prop :=
  r.x0 < px ∧ px < r.x1 ∧ r.y0 < py ∧ py < r.y1

/-- A line parallel to an axis separates the two rectangles. -/
def Rect.Apart (a b : Rect) : Prop :=
  a.x1 ≤ b.x0 ∨ b.x1 ≤ a.x0 ∨ a.y1 ≤ b.y0 ∨ b.y1 ≤ a.y0

/-- An internal record that carries a value of its own. -/
def ownValueTree : RawRecord :=
  .mk "All" (some 5) [.mk "A" (some 3) []]

/-- The scenario tree `All{A:30, B{B1:10, B2:60}}`. -/
def scenarioTree : RawRecord :=
  .mk "All" none [.mk "A" (some 30) [], .mk "B" none [.mk "B1" (some 10) [], .mk "B2" (some 60) []]]

/-- A childless record without a value. -/
def missingValueTree : RawRecord :=
  .mk "All" none [.mk "A" none [], .mk "B" (some 4) []]

/-- A childless record with a negative value. -/
def negativeValueTree : RawRecord :=
  .mk "All" none [.mk "A" (some 30) [], .mk "B" (some (-10)) []]

/-- A childless record that `build` of the specification rejects: no value, or a
negative one. -/
def RawRecord.Rejected (r : RawRecord) : Prop :=
  r.children = [] ∧ (r.value = none ∨ ∃ v, r.value = some v ∧ v < 0)

/-- A tree with a node of depth 2 that has children: `All{A:30, B{B1:10, B2{C1:20, C2:40}}}`. -/
def deepTree : RawRecord :=
  .mk "All" none [.mk "A" (some 30) [],
    .mk "B" none [.mk "B1" (some 10) [], .mk "B2" none [.mk "C1" (some 20) [], .mk "C2" (some 40) []]]]

/-- The state that every run of the view keeps to: the tree is the one laid out from
`data`, the pixel ranges are the canvas, and while a layer is shown it takes pointer
events, the root has children, the node whose children it shows has children, and both
domains are the box of that node. -/
def View.Steady (data : RawRecord) (s : View) : Prop :=
  s.globalRoot = treemap width height (buildNode data 0) ∧
    s.x.range = (0, width) ∧ s.y.range = (0, height) ∧
    ∀ p, s.group = some p →
      s.pointerEvents = true ∧ s.globalRoot.children ≠ [] ∧
        ∃ n, s.globalRoot.descendant? p = some n ∧ n.children ≠ [] ∧
          s.x.domain = (n.x0, n.x1) ∧ s.y.domain = (n.y0, n.y1)

/-- A sibling group whose values are all 0. -/
def zeroTree : RawRecord :=
  .mk "All" none [.mk "A" (some 0) [], .mk "B" (some 0) []]

/-- No record of the tree carries a negative value. -/
def RawRecord.NonNegative (data : RawRecord) : Prop :=
  ∀ r ∈ data.records, 0 ≤ ownValue r

/-- The interiors of the two rectangles have no point in common. -/
def Rect.InteriorsDisjoint (a b : Rect) : Prop :=
  ∀ px py : ℚ, ¬(a.Interior px py ∧ b.Interior px py)

/-- The pixel rectangle of `a` lies inside the pixel rectangle of `b`. -/
def PixelBox.Within (a b : PixelBox) : Prop :=
  b.left ≤ a.left ∧ a.left + a.width ≤ b.left + b.width ∧
    b.top ≤ a.top ∧ a.top + a.height ≤ b.top + b.height

instance (a b : PixelBox) : Decidable (a.Within b) :=
  inferInstanceAs (Decidable (_ ∧ _ ∧ _ ∧ _))

/-- A tree whose node `B` has children, one of them with a negative value. -/
def negativeDeepTree : RawRecord :=
  .mk "All" none
    [.mk "A" (some 30) [], .mk "B" none [.mk "B1" (some 30) [], .mk "B2" (some (-10)) []]]

/-- The number of `resize` events in a sequence of events. -/
def resizeCount : List Event → Nat
  | [] => 0
  | .resize :: es => resizeCount es + 1
  | _ :: es => resizeCount es

/-! ## Trees: induction and the shape of the nodes -/

theorem rawRecord_induct {P : RawRecord → Prop}
    (step : ∀ n v cs, (∀ c ∈ cs, P c) → P (.mk n v cs)) (d : RawRecord) : P d :=
  RawRecord.rec (motive_1 := P) (motive_2 := fun l => ∀ c ∈ l, P c)
    (fun n v cs ih => step n v cs ih)
    (fun c hc => absurd hc (List.not_mem_nil c))
    (fun c cs hc hcs x hx => by
      rcases List.mem_cons.1 hx with h | h
      · exact h ▸ hc
      · exact hcs x h) d

theorem node_induct {P : Node → Prop}
    (step : ∀ d k v cs b, (∀ c ∈ cs, P c) → P (.mk d k v cs b)) (n : Node) : P n :=
  Node.rec (motive_1 := P) (motive_2 := fun l => ∀ c ∈ l, P c)
    (fun d k v cs b ih => step d k v cs b ih)
    (fun c hc => absurd hc (List.not_mem_nil c))
    (fun c cs hc hcs x hx => by
      rcases List.mem_cons.1 hx with h | h
      · exact h ▸ hc
      · exact hcs x h) n

theorem mem_nodesList {m : Node} {l : List Node} :
    m ∈ Node.nodes.nodesList l ↔ ∃ c ∈ l, m ∈ c.nodes := by
  induction l with
  | nil => simp [Node.nodes.nodesList]
  | cons c cs ih => simp [Node.nodes.nodesList, ih]

theorem mem_recordsList {m : RawRecord} {l : List RawRecord} :
    m ∈ RawRecord.records.recordsList l ↔ ∃ c ∈ l, m ∈ c.records := by
  induction l with
  | nil => simp [RawRecord.records.recordsList]
  | cons c cs ih => simp [RawRecord.records.recordsList, ih]

theorem Node.mem_nodes_self (n : Node) : n ∈ n.nodes := by
  cases n; simp [Node.nodes]

theorem Node.mem_nodes_iff {m n : Node} :
    m ∈ n.nodes ↔ m = n ∨ ∃ c ∈ n.children, m ∈ c.nodes := by
  cases n; simp [Node.nodes, mem_nodesList, Node.children]

theorem RawRecord.mem_records_self (d : RawRecord) : d ∈ d.records := by
  cases d; simp [RawRecord.records]

theorem RawRecord.mem_records_iff {m d : RawRecord} :
    m ∈ d.records ↔ m = d ∨ ∃ c ∈ d.children, m ∈ c.records := by
  cases d; simp [RawRecord.records, mem_recordsList, RawRecord.children]

theorem hierarchyList_eq_map (cs : List RawRecord) (k : Nat) :
    hierarchyList cs k = cs.map fun c => hierarchy c k := by
  induction cs with
  | nil => simp [hierarchyList]
  | cons c cs ih => simp [hierarchyList, ih]

theorem sumList_eq_map (cs : List Node) : sumList cs = cs.map Node.sum := by
  induction cs with
  | nil => simp [sumList]
  | cons c cs ih => simp [sumList, ih]

theorem sortList_eq_map (cs : List Node) : sortList cs = cs.map Node.sort := by
  induction cs with
  | nil => simp [sortList]
  | cons c cs ih => simp [sortList, ih]

theorem Node.value_sort (n : Node) : n.sort.value = n.value := by
  cases n; simp [Node.sort, Node.value]

/-- The node built for a record: its value is the record's own value plus the values
of the nodes built for the record's children, and its children are those nodes,
sorted. -/
theorem buildNode_mk (n : String) (v : Option ℚ) (cs : List RawRecord) (k : Nat) :
    buildNode (.mk n v cs) k =
      .mk (.mk n v cs) k
        (ownValue (.mk n v cs) + (cs.map fun c => (buildNode c (k + 1)).value).sum)
        (arraySort compareNodes (cs.map fun c => buildNode c (k + 1))) none := by
  simp only [buildNode, hierarchy, Node.sum, Node.sort, hierarchyList_eq_map, sumList_eq_map,
    sortList_eq_map, List.map_map]
  congr 2
  apply congrArg
  apply List.map_congr_left
  intro c _
  simp [Node.value_sort]

theorem mem_arraySort {α : Type} (cmp : α → α → Int) {a : α} {l : List α} :
    a ∈ arraySort cmp l ↔ a ∈ l :=
  (List.perm_insertionSort _ l).mem_iff

/-- Every node of a built hierarchy is itself the node built for one of the records. -/
theorem mem_nodes_buildNode (d : RawRecord) :
    ∀ (k : Nat) (m : Node), m ∈ (buildNode d k).nodes →
      ∃ r ∈ d.records, ∃ j, m = buildNode r j := by
  induction d using rawRecord_induct with
  | step n v cs ih =>
    intro k m hm
    rw [buildNode_mk, Node.mem_nodes_iff] at hm
    rcases hm with hm | ⟨c, hc, hm⟩
    · exact ⟨_, RawRecord.mem_records_self _, k, by rw [hm, buildNode_mk]⟩
    · rw [Node.children, mem_arraySort, List.mem_map] at hc
      obtain ⟨r, hr, rfl⟩ := hc
      obtain ⟨r2, hr2, j, hj⟩ := ih r hr (k + 1) m hm
      exact ⟨r2, RawRecord.mem_records_iff.2 (Or.inr ⟨r, hr, hr2⟩), j, hj⟩

/-! ## Tiling: rows and the passes of `squarifyRatio` -/

theorem firstNonEmpty_spec (l : List ℚ) (hl : l ≠ []) :
    (firstNonEmpty l).1 ++ (firstNonEmpty l).2.2 = l ∧ (firstNonEmpty l).1 ≠ [] ∧
      (firstNonEmpty l).2.1 = (firstNonEmpty l).1.sum := by
  induction l with
  | nil => exact absurd rfl hl
  | cons v vs ih =>
    by_cases h : v = 0 ∧ vs ≠ []
    · obtain ⟨h1, _, h3⟩ := ih h.2
      simp only [firstNonEmpty, if_pos h]
      refine ⟨by rw [List.cons_append, h1], List.cons_ne_nil _ _, ?_⟩
      rw [List.sum_cons, h.1, zero_add, h3]
    · simp [firstNonEmpty, if_neg h]

theorem growRow_spec (alpha : JsNumber) (rest : List ℚ) :
    ∀ (s mn mx : ℚ) (mr : JsNumber),
      (growRow alpha s mn mx mr rest).1 ++ (growRow alpha s mn mx mr rest).2.2 = rest ∧
        (growRow alpha s mn mx mr rest).2.1 = s + (growRow alpha s mn mx mr rest).1.sum := by
  induction rest with
  | nil => intro s mn mx mr; simp [growRow]
  | cons v vs ih =>
    intro s mn mx mr
    by_cases h : JsNumber.gt (JsNumber.max
        (JsNumber.div (.fin (if v > mx then v else mx))
          (JsNumber.mul (.fin ((s + v) * (s + v))) alpha))
        (JsNumber.div (JsNumber.mul (.fin ((s + v) * (s + v))) alpha)
          (.fin (if v < mn then v else mn)))) mr = true
    · simp only [growRow, if_pos h]
      simp
    · obtain ⟨h1, h2⟩ := ih (s + v) (if v < mn then v else mn) (if v > mx then v else mx)
        (JsNumber.max
          (JsNumber.div (.fin (if v > mx then v else mx))
            (JsNumber.mul (.fin ((s + v) * (s + v))) alpha))
          (JsNumber.div (JsNumber.mul (.fin ((s + v) * (s + v))) alpha)
            (.fin (if v < mn then v else mn))))
      simp only [growRow, if_neg h]
      refine ⟨by rw [List.cons_append, h1], ?_⟩
      rw [h2, List.sum_cons]; ring

theorem firstNonEmpty_zeros (l : List ℚ) (hl : ∀ v ∈ l, v = 0) :
    (firstNonEmpty l).2.2 = [] := by
  induction l with
  | nil => rfl
  | cons v vs ih =>
    by_cases h : v = 0 ∧ vs ≠ []
    · simp only [firstNonEmpty, if_pos h]
      exact ih fun w hw => hl w (List.mem_cons_of_mem _ hw)
    · simp only [firstNonEmpty, if_neg h]
      by_contra hne
      exact h ⟨hl v (List.mem_cons_self _ _), hne⟩

/-- One pass of `while (i0 < n)`: a non-empty row is cut off the front of the nodes and
laid out in a strip along the shorter side; the rest goes into what is left. Nodes that
are all 0 make one row. -/
theorem squarifyRatio_pass (a : ℚ) (fuel : Nat) (node : ℚ) (nodes : List ℚ)
    (value x0 y0 x1 y1 : ℚ) :
    ∃ row rest : List ℚ, row ≠ [] ∧ row ++ rest = node :: nodes ∧
      ((∀ v ∈ node :: nodes, v = 0) → rest = []) ∧
      squarifyRatio a (fuel + 1) (node :: nodes) value x0 y0 x1 y1 =
        if x1 - x0 < y1 - y0 then
          treemapDice row row.sum x0 y0 x1
              (if value = 0 then y1 else y0 + (y1 - y0) * row.sum / value)
            ++ squarifyRatio a fuel rest (value - row.sum) x0
              (if value = 0 then y0 else y0 + (y1 - y0) * row.sum / value) x1 y1
        else
          treemapSlice row row.sum x0 y0
              (if value = 0 then x1 else x0 + (x1 - x0) * row.sum / value) y1
            ++ squarifyRatio a fuel rest (value - row.sum)
              (if value = 0 then x0 else x0 + (x1 - x0) * row.sum / value) y0 x1 y1 := by
  obtain ⟨f1, f2, f3⟩ := firstNonEmpty_spec (node :: nodes) (List.cons_ne_nil _ _)
  have f4 := firstNonEmpty_zeros (node :: nodes)
  generalize hf : firstNonEmpty (node :: nodes) = first at f1 f2 f3 f4
  generalize hal : JsNumber.div (JsNumber.max (JsNumber.div (.fin (y1 - y0)) (.fin (x1 - x0)))
    (JsNumber.div (.fin (x1 - x0)) (.fin (y1 - y0)))) (.fin (value * a)) = alpha
  generalize hmr : JsNumber.max
    (JsNumber.div (.fin first.2.1) (JsNumber.mul (.fin (first.2.1 * first.2.1)) alpha))
    (JsNumber.div (JsNumber.mul (.fin (first.2.1 * first.2.1)) alpha) (.fin first.2.1))
    = minRatio
  obtain ⟨g1, g2⟩ := growRow_spec alpha first.2.2 first.2.1 first.2.1 first.2.1 minRatio
  generalize hg : growRow alpha first.2.1 first.2.1 first.2.1 minRatio first.2.2 = grown at g1 g2
  have hs : grown.2.1 = (first.1 ++ grown.1).sum := by rw [g2, f3, List.sum_append]
  refine ⟨first.1 ++ grown.1, grown.2.2, by simp [f2], ?_, ?_, ?_⟩
  · rw [List.append_assoc, g1, f1]
  · intro hz
    rw [f4 hz] at g1
    exact (List.append_eq_nil.1 g1).2
  · rw [squarifyRatio]
    simp only [hf, hal, hmr, hg, hs]

theorem squarifyRatio_nil (a : ℚ) (fuel : Nat) (value x0 y0 x1 y1 : ℚ) :
    squarifyRatio a fuel [] value x0 y0 x1 y1 = [] := by
  cases fuel <;> simp [squarifyRatio]

theorem length_diceBoxes (k y0 y1 : ℚ) (vs : List ℚ) :
    ∀ x, (diceBoxes k y0 y1 x vs).length = vs.length := by
  induction vs with
  | nil => intro x; rfl
  | cons v vs ih => intro x; simp [diceBoxes, ih]

theorem length_sliceBoxes (k x0 x1 : ℚ) (vs : List ℚ) :
    ∀ y, (sliceBoxes k x0 x1 y vs).length = vs.length := by
  induction vs with
  | nil => intro y; rfl
  | cons v vs ih => intro y; simp [sliceBoxes, ih]

/-- With as many passes as there are nodes, every node gets a box. -/
theorem length_squarifyRatio (a : ℚ) (fuel : Nat) :
    ∀ (nodes : List ℚ) (value x0 y0 x1 y1 : ℚ), nodes.length ≤ fuel →
      (squarifyRatio a fuel nodes value x0 y0 x1 y1).length = nodes.length := by
  induction fuel with
  | zero =>
    intro nodes value x0 y0 x1 y1 h
    have : nodes = [] := List.length_eq_zero.1 (Nat.le_zero.1 h)
    subst this; simp [squarifyRatio]
  | succ fuel ih =>
    intro nodes value x0 y0 x1 y1 h
    cases nodes with
    | nil => simp [squarifyRatio]
    | cons node nodes =>
      obtain ⟨row, rest, hne, happ, _, heq⟩ :=
        squarifyRatio_pass a fuel node nodes value x0 y0 x1 y1
      have hlen : row.length + rest.length = nodes.length + 1 := by
        rw [← List.length_append, happ, List.length_cons]
      have hpos : 0 < row.length := List.length_pos.2 hne
      have hrest : rest.length ≤ fuel := by
        simp only [List.length_cons] at h; omega
      rw [heq]
      split
      · rw [List.length_append, ih rest _ _ _ _ _ hrest, treemapDice, length_diceBoxes,
          List.length_cons, hlen]
      · rw [List.length_append, ih rest _ _ _ _ _ hrest, treemapSlice, length_sliceBoxes,
          List.length_cons, hlen]

theorem length_treemapSquarify (nodes : List ℚ) (value : ℚ) (r : Rect) :
    (treemapSquarify nodes value r).length = nodes.length :=
  length_squarifyRatio phi _ nodes value _ _ _ _ (Nat.le_refl _)

/-! ## Layout: the nodes of a positioned tree -/

theorem mem_positionList {m : Node} :
    ∀ (cs : List Node) (rs : List Rect), rs.length = cs.length → m ∈ positionList cs rs →
      ∃ c ∈ cs, ∃ r ∈ rs, m = positionNode c r := by
  intro cs
  induction cs with
  | nil => intro rs _ hm; simp [positionList] at hm
  | cons c cs ih =>
    intro rs hlen hm
    cases rs with
    | nil => simp at hlen
    | cons r rs =>
      simp only [positionList, List.mem_cons] at hm
      rcases hm with hm | hm
      · exact ⟨c, List.mem_cons_self _ _, r, List.mem_cons_self _ _, hm⟩
      · obtain ⟨c2, hc2, r2, hr2, h⟩ := ih rs (by simpa using hlen) hm
        exact ⟨c2, List.mem_cons_of_mem _ hc2, r2, List.mem_cons_of_mem _ hr2, h⟩

theorem Node.value_positionNode (n : Node) (r : Rect) : (positionNode n r).value = n.value := by
  cases n; simp [positionNode, Node.value]

theorem Node.data_positionNode (n : Node) (r : Rect) : (positionNode n r).data = n.data := by
  cases n; simp [positionNode, Node.data]

theorem Node.depth_positionNode (n : Node) (r : Rect) : (positionNode n r).depth = n.depth := by
  cases n; simp [positionNode, Node.depth]

theorem Node.box_positionNode (n : Node) (r : Rect) :
    (positionNode n r).box = some (collapse r) := by
  cases n; simp [positionNode, Node.box]

theorem Node.children_positionNode (n : Node) (r : Rect) :
    (positionNode n r).children =
      positionList n.children
        (treemapSquarify (n.children.map Node.value) n.value (collapse (collapse r))) := by
  cases n; simp [positionNode, Node.children, Node.value]

theorem map_value_positionList (cs : List Node) :
    ∀ rs : List Rect, (positionList cs rs).map Node.value = cs.map Node.value := by
  induction cs with
  | nil => intro rs; simp [positionList]
  | cons c cs ih =>
    intro rs
    cases rs with
    | nil => simp [positionList, ih]
    | cons r rs => simp [positionList, ih, Node.value_positionNode]

theorem length_positionList (cs : List Node) (rs : List Rect) :
    (positionList cs rs).length = cs.length := by
  have h := congrArg List.length (map_value_positionList cs rs)
  simpa using h

/-- Every node of a laid-out tree is a node of the tree that was laid out, positioned
in some rectangle. -/
theorem mem_nodes_positionNode (n : Node) :
    ∀ (r : Rect) (m : Node), m ∈ (positionNode n r).nodes →
      ∃ n2 ∈ n.nodes, ∃ r2, m = positionNode n2 r2 := by
  induction n using node_induct with
  | step d k v cs b ih =>
    intro r m hm
    rw [Node.mem_nodes_iff] at hm
    rcases hm with hm | ⟨c2, hc2, hm⟩
    · exact ⟨_, Node.mem_nodes_self _, r, hm⟩
    · rw [Node.children_positionNode] at hc2
      obtain ⟨c, hc, r2, _, hcr⟩ := mem_positionList _ _
        (by rw [length_treemapSquarify, List.length_map]) hc2
      subst hcr
      obtain ⟨n2, hn2, r3, h⟩ := ih c hc r2 m hm
      exact ⟨n2, Node.mem_nodes_iff.2 (Or.inr ⟨c, hc, hn2⟩), r3, h⟩

theorem Node.data_buildNode (d : RawRecord) (k : Nat) : (buildNode d k).data = d := by
  cases d; rw [buildNode_mk, Node.data]

theorem Node.depth_buildNode (d : RawRecord) (k : Nat) : (buildNode d k).depth = k := by
  cases d; rw [buildNode_mk, Node.depth]

theorem Node.children_buildNode (d : RawRecord) (k : Nat) :
    (buildNode d k).children =
      arraySort compareNodes (d.children.map fun c => buildNode c (k + 1)) := by
  cases d; rw [buildNode_mk, Node.children, RawRecord.children]

theorem sum_map_arraySort {α : Type} (cmp : α → α → Int) (f : α → ℚ) (l : List α) :
    ((arraySort cmp l).map f).sum = (l.map f).sum :=
  ((List.perm_insertionSort _ l).map f).sum_eq

theorem Node.value_buildNode (d : RawRecord) (k : Nat) :
    (buildNode d k).value = ownValue d + ((buildNode d k).children.map Node.value).sum := by
  rw [Node.children_buildNode, sum_map_arraySort]
  cases d
  rw [buildNode_mk, Node.value, RawRecord.children, List.map_map]
  rfl

theorem value_nodes_sum (n : Node) :
    ∀ m ∈ n.sum.nodes, m.value = ownValue m.data + (m.children.map Node.value).sum := by
  induction n using node_induct with
  | step d k v cs b ih =>
    intro m hm
    rw [Node.mem_nodes_iff] at hm
    rcases hm with hm | ⟨c2, hc2, hm⟩
    · subst hm; simp [Node.sum, Node.value, Node.data, Node.children]
    · simp only [Node.sum, Node.children, sumList_eq_map, List.mem_map] at hc2
      obtain ⟨c, hc, rfl⟩ := hc2
      exact ih c hc m hm

theorem globalRoot_plotTreeMap (data : RawRecord) (page : Option View) :
    (plotTreeMap data page).globalRoot = treemap width height (buildNode data 0) := by
  unfold plotTreeMap
  split <;> rfl

/-- Every node of the tree `plotTreeMap` keeps is the node built for one of the records,
positioned in some rectangle. -/
theorem mem_nodes_globalRoot {data : RawRecord} {page : Option View} {m : Node}
    (hm : m ∈ (plotTreeMap data page).globalRoot.nodes) :
    ∃ r ∈ data.records, ∃ j r2, m = positionNode (buildNode r j) r2 := by
  rw [globalRoot_plotTreeMap] at hm
  obtain ⟨n2, hn2, r2, h⟩ := mem_nodes_positionNode _ _ m hm
  obtain ⟨r, hr, j, hj⟩ := mem_nodes_buildNode data 0 n2 hn2
  exact ⟨r, hr, j, r2, by rw [h, hj]⟩

theorem value_positioned_buildNode (d : RawRecord) (j : Nat) (r : Rect) :
    (positionNode (buildNode d j) r).value =
      ownValue (positionNode (buildNode d j) r).data +
        ((positionNode (buildNode d j) r).children.map Node.value).sum := by
  rw [Node.value_positionNode, Node.data_positionNode, Node.children_positionNode,
    map_value_positionList, Node.data_buildNode]
  exact Node.value_buildNode d j

/-! ## The hierarchy: values and order -/

theorem compareNodes_le_zero (a b : Node) : compareNodes a b ≤ 0 ↔ b.value ≤ a.value := by
  unfold compareNodes descending
  split_ifs with h1 h2
  · simp [le_of_lt h1]
  · simp [not_le.2 h2]
  · simp [le_of_not_lt h2]

/-- C4: in the hierarchy that lines 47 to 51 build, the children of every node are the
nodes built for the children of its own record, permuted; they are in non-increasing
order of value; and two of them with equal value stand in the order of the record. -/
theorem children_sorted_stable (data : RawRecord) (n : Node)
    (hn : n ∈ (hierarchy data 0).sum.sort.nodes) :
    n.children.Perm (n.data.children.map fun r => (hierarchy r (n.depth + 1)).sum.sort) ∧
      (n.children.map Node.data).Perm n.data.children ∧
      n.children.Pairwise (fun a b => a.value ≥ b.value) ∧
      ∀ a b : Node, a.value = b.value →
        List.Sublist [a, b] (n.data.children.map fun r => (hierarchy r (n.depth + 1)).sum.sort) →
        List.Sublist [a, b] n.children := by
  obtain ⟨r, _, j, rfl⟩ := mem_nodes_buildNode data 0 n hn
  rw [Node.children_buildNode, Node.data_buildNode, Node.depth_buildNode]
  have hperm := List.perm_insertionSort (fun a b => compareNodes a b ≤ 0)
    (r.children.map fun c => buildNode c (j + 1))
  refine ⟨hperm, ?_, ?_, ?_⟩
  · have h := hperm.map Node.data
    have hid : (r.children.map fun c => buildNode c (j + 1)).map Node.data = r.children := by
      rw [List.map_map]
      conv_rhs => rw [← List.map_id r.children]
      exact List.map_congr_left fun c _ => Node.data_buildNode c (j + 1)
    rw [hid] at h
    exact h
  · haveI : IsTotal Node (fun a b => compareNodes a b ≤ 0) :=
      ⟨fun a b => by
        simp only [compareNodes_le_zero]
        exact le_total _ _⟩
    haveI : IsTrans Node (fun a b => compareNodes a b ≤ 0) :=
      ⟨fun a b c hab hbc => by
        simp only [compareNodes_le_zero] at *
        exact le_trans hbc hab⟩
    have h := List.sorted_insertionSort (fun a b => compareNodes a b ≤ 0)
      (r.children.map fun c => buildNode c (j + 1))
    exact h.imp fun {a b} hab => (compareNodes_le_zero a b).1 hab
  · intro a b hab hsub
    exact List.pair_sublist_insertionSort (r := fun a b => compareNodes a b ≤ 0)
      ((compareNodes_le_zero a b).2 (le_of_eq hab.symm)) hsub

/-- C4 at the root of the scenario tree, whose children `A` (30) and `B` (70) come out
as `B`, `A`. -/
theorem children_sorted_stable_witness :
    (hierarchy scenarioTree 0).sum.sort.children.map Node.value = [70, 30] ∧
      (hierarchy scenarioTree 0).sum.sort.children.Pairwise (fun a b => a.value ≥ b.value) :=
  ⟨by decide!,
    (children_sorted_stable scenarioTree _ (Node.mem_nodes_self _)).2.2.1⟩

/-! ## The view: rendering -/

theorem length_arraySort {α : Type} (cmp : α → α → Int) (l : List α) :
    (arraySort cmp l).length = l.length :=
  List.length_insertionSort _ l

theorem length_children_root (data : RawRecord) :
    (treemap width height (buildNode data 0)).children.length = data.children.length := by
  rw [treemap, Node.children_positionNode, length_positionList, Node.children_buildNode,
    length_arraySort, List.length_map]

theorem render_of_children {root g : Node} {d : Path} (hg : root.descendant? d = some g)
    (hne : g.children ≠ []) :
    render root d =
      some (g.children.enum.map fun ic => ⟨d ++ [ic.1], !ic.2.children.isEmpty⟩) := by
  unfold render
  rw [hg]
  simp [hne]

theorem render_of_leaf {root g : Node} {d : Path} (hg : root.descendant? d = some g)
    (hleaf : g.children = []) : render root d = none := by
  unfold render
  rw [hg]
  simp [hleaf]

theorem children_of_render {root : Node} {d : Path} {els : List Element}
    (h : render root d = some els) :
    ∃ g, root.descendant? d = some g ∧ g.children ≠ [] ∧
      els = g.children.enum.map fun ic => ⟨d ++ [ic.1], !ic.2.children.isEmpty⟩ := by
  cases hg : root.descendant? d with
  | none => simp [render, hg] at h
  | some g =>
    by_cases hne : g.children = []
    · rw [render_of_leaf hg hne] at h; cases h
    · rw [render_of_children hg hne] at h
      exact ⟨g, rfl, hne, (Option.some.inj h).symm⟩

theorem plotTreeMap_of_children {data : RawRecord} (page : Option View)
    (h : data.children ≠ []) :
    plotTreeMap data page =
      View.mk (treemap width height (buildNode data 0))
        ⟨(0, width), (0, width)⟩ ⟨(0, height), (0, height)⟩ (some []) true
        (page.bind View.header) ((page.map View.listeners).getD 0 + 1) := by
  have hne : (treemap width height (buildNode data 0)).children ≠ [] := by
    intro h0
    have hl := length_children_root data
    rw [h0] at hl
    exact h (List.length_eq_zero.1 hl.symm)
  have hr := @render_of_children (treemap width height (buildNode data 0)) _ [] rfl hne
  unfold plotTreeMap
  rw [show (hierarchy data 0).sum.sort = buildNode data 0 from rfl, hr]

theorem descendant?_snoc {root g : Node} {d : Path} (i : Nat)
    (hg : root.descendant? d = some g) :
    root.descendant? (d ++ [i]) = g.children.get? i := by
  induction d generalizing root with
  | nil =>
    simp only [Node.descendant?, Option.some.injEq] at hg
    subst hg
    simp only [List.nil_append, Node.descendant?]
    cases root.children.get? i <;> rfl
  | cons j d ih =>
    simp only [Node.descendant?, List.cons_append] at hg ⊢
    cases hj : root.children.get? j with
    | none => rw [hj] at hg; simp at hg
    | some c => rw [hj] at hg; exact ih hg

/-- An element of the layer is a child of the node in focus: its datum is the child's
path, and it has the click handler exactly when the child has children. -/
theorem layer_get? {s : View} {i : Nat} {e : Element} (he : (layer s).get? i = some e) :
    ∃ p g c, s.group = some p ∧ s.pointerEvents = true ∧
      s.globalRoot.descendant? p = some g ∧ g.children.get? i = some c ∧
      s.globalRoot.descendant? (p ++ [i]) = some c ∧
      e = ⟨p ++ [i], !c.children.isEmpty⟩ := by
  unfold layer at he
  cases hgr : s.group with
  | none => rw [hgr] at he; simp at he
  | some p =>
    rw [hgr] at he
    by_cases hpe : s.pointerEvents = true
    · simp only [hpe, if_true] at he
      cases hr : render s.globalRoot p with
      | none => rw [hr] at he; simp at he
      | some els =>
        obtain ⟨g, hg, _, hels⟩ := children_of_render hr
        rw [hr, hels] at he
        simp only [Option.getD_some, List.get?_eq_getElem?, List.getElem?_map,
          List.getElem?_enum] at he
        cases hc : g.children[i]? with
        | none => rw [hc] at he; simp at he
        | some c =>
          rw [hc] at he
          simp only [Option.map_some', Option.some.injEq] at he
          have hc2 : g.children.get? i = some c := by rw [List.get?_eq_getElem?]; exact hc
          exact ⟨p, g, c, rfl, hpe, hg, hc2, by rw [descendant?_snoc i hg, hc2], he.symm⟩
    · simp [hpe] at he

/-! ## The hierarchy: no value is checked -/

/-- C5, as stated, fails: `missingValueTree` has the childless record `A` without a value
and `negativeValueTree` the childless record `B` with the value -10; `initTreemap` builds
and renders both trees, `A` with the value 0 and `B` with the value -10. -/
theorem data_error_counterexample :
    RawRecord.Rejected (.mk "A" none []) ∧
      RawRecord.mk "A" none [] ∈ missingValueTree.records ∧
      (initTreemap missingValueTree).map
          (fun s => ((layer s).length, s.globalRoot.children.map fun n => (n.data.name, n.value)))
        = some (2, [("B", 4), ("A", 0)]) ∧
      RawRecord.Rejected (.mk "B" (some (-10)) []) ∧
      RawRecord.mk "B" (some (-10)) [] ∈ negativeValueTree.records ∧
      (initTreemap negativeValueTree).map
          (fun s => ((layer s).length, s.globalRoot.children.map fun n => (n.data.name, n.value)))
        = some (2, [("A", 30), ("B", -10)]) := by
  refine ⟨⟨rfl, Or.inl rfl⟩, ?_, by decide!, ⟨rfl, Or.inr ⟨-10, rfl, by norm_num⟩⟩, ?_,
    by decide!⟩
  · simp [missingValueTree, RawRecord.records, RawRecord.records.recordsList]
  · simp [negativeValueTree, RawRecord.records, RawRecord.records.recordsList]

/-- C5, amended: building the hierarchy never fails and checks no value. For every tree
of records `initTreemap` builds and lays out the hierarchy; a childless record gets its
own value, 0 when it has none, and a negative one as it is; and when the root record has
children, the layer is rendered with one element per child of the root. -/
theorem build_checks_no_value (data : RawRecord) :
    ∃ s, initTreemap data = some s ∧
      (∀ n ∈ s.globalRoot.nodes, n.data.children = [] → n.value = n.data.value.getD 0) ∧
      (data.children ≠ [] → s.group = some [] ∧ (layer s).length = data.children.length) := by
  refine ⟨plotTreeMap data none, rfl, ?_, ?_⟩
  · intro n hn hleaf
    obtain ⟨r, _, j, r2, rfl⟩ := mem_nodes_globalRoot hn
    rw [Node.data_positionNode, Node.data_buildNode] at hleaf
    rw [value_positioned_buildNode, Node.children_positionNode, map_value_positionList,
      Node.children_buildNode, hleaf, Node.data_positionNode, Node.data_buildNode]
    simp [arraySort, ownValue]
  · intro h
    rw [plotTreeMap_of_children none h]
    refine ⟨rfl, ?_⟩
    have hne : (treemap width height (buildNode data 0)).children ≠ [] := by
      intro h0
      have hl := length_children_root data
      rw [h0] at hl
      exact h (List.length_eq_zero.1 hl.symm)
    simp only [layer, if_true]
    rw [@render_of_children (treemap width height (buildNode data 0)) _ [] rfl hne]
    simp [length_children_root]

/-! ## The layout is eager -/

/-- C6, as stated, fails: right after `plotTreeMap` on the scenario tree the focus is the
root, no zoom has run, and the node `B2` of depth 2 has its box already. -/
theorem lazy_tiling_counterexample :
    (plotTreeMap scenarioTree none).group = some [] ∧
      ((plotTreeMap scenarioTree none).globalRoot.descendant? [0, 0]).map
          (fun n => (n.data.name, n.depth, n.box))
        = some ("B2", 2, some ⟨0, 0, 960, 680⟩) := by
  decide!

theorem zoom_globalRoot (s : View) (d : Path) : (zoom s d).globalRoot = s.globalRoot := by
  unfold zoom
  split
  · rfl
  · split <;> rfl

/-- C6, amended: the layout is eager. The initial layout of `plotTreeMap` assigns a box to
every node of the hierarchy, at every depth, and a zoom transition tiles nothing: it
leaves the tree, with every box, as it is. -/
theorem layout_is_eager (data : RawRecord) (page : Option View) :
    (∀ n ∈ (plotTreeMap data page).globalRoot.nodes, ∃ r, n.box = some r) ∧
      ∀ (s : View) (d : Path), (zoom s d).globalRoot = s.globalRoot := by
  refine ⟨?_, zoom_globalRoot⟩
  intro n hn
  obtain ⟨r, _, j, r2, rfl⟩ := mem_nodes_globalRoot hn
  exact ⟨_, Node.box_positionNode _ _⟩

/-! ## Tiling: where the boxes lie and how large they are -/

theorem diceBoxes_spec (k y0 y1 : ℚ) (hk : 0 ≤ k) (hy : y0 ≤ y1) (vs : List ℚ) :
    ∀ x : ℚ, (∀ v ∈ vs, 0 ≤ v) →
      (∀ b ∈ diceBoxes k y0 y1 x vs,
          b.Proper ∧ b.y0 = y0 ∧ b.y1 = y1 ∧ x ≤ b.x0 ∧ b.x1 ≤ x + vs.sum * k) ∧
        (diceBoxes k y0 y1 x vs).Pairwise Rect.Apart ∧
        ∀ p ∈ vs.zip (diceBoxes k y0 y1 x vs), p.2.area = p.1 * k * (y1 - y0) := by
  induction vs with
  | nil => intro x _; simp [diceBoxes]
  | cons v vs ih =>
    intro x hvs
    have hv : 0 ≤ v := hvs v (List.mem_cons_self _ _)
    have hvk : 0 ≤ v * k := mul_nonneg hv hk
    obtain ⟨h1, h2, h3⟩ := ih (x + v * k) (fun w hw => hvs w (List.mem_cons_of_mem _ hw))
    have hsum : 0 ≤ vs.sum * k :=
      mul_nonneg (List.sum_nonneg fun w hw => hvs w (List.mem_cons_of_mem _ hw)) hk
    have hadd : (v + vs.sum) * k = v * k + vs.sum * k := add_mul v vs.sum k
    simp only [diceBoxes, List.sum_cons]
    refine ⟨?_, ?_, ?_⟩
    · intro b hb
      rcases List.mem_cons.1 hb with hb | hb
      · subst hb
        refine ⟨⟨?_, hy⟩, rfl, rfl, le_refl _, ?_⟩
        · show x ≤ x + v * k
          linarith
        · show x + v * k ≤ x + (v + vs.sum) * k
          linarith
      · obtain ⟨hp, hy0, hy1, hx0, hx1⟩ := h1 b hb
        exact ⟨hp, hy0, hy1, by linarith, by linarith⟩
    · rw [List.pairwise_cons]
      exact ⟨fun b hb => Or.inl (h1 b hb).2.2.2.1, h2⟩
    · intro p hp
      rw [List.zip_cons_cons, List.mem_cons] at hp
      rcases hp with hp | hp
      · subst hp
        simp only [Rect.area]
        ring
      · exact h3 p hp

theorem sliceBoxes_spec (k x0 x1 : ℚ) (hk : 0 ≤ k) (hx : x0 ≤ x1) (vs : List ℚ) :
    ∀ y : ℚ, (∀ v ∈ vs, 0 ≤ v) →
      (∀ b ∈ sliceBoxes k x0 x1 y vs,
          b.Proper ∧ b.x0 = x0 ∧ b.x1 = x1 ∧ y ≤ b.y0 ∧ b.y1 ≤ y + vs.sum * k) ∧
        (sliceBoxes k x0 x1 y vs).Pairwise Rect.Apart ∧
        ∀ p ∈ vs.zip (sliceBoxes k x0 x1 y vs), p.2.area = p.1 * k * (x1 - x0) := by
  induction vs with
  | nil => intro y _; simp [sliceBoxes]
  | cons v vs ih =>
    intro y hvs
    have hv : 0 ≤ v := hvs v (List.mem_cons_self _ _)
    have hvk : 0 ≤ v * k := mul_nonneg hv hk
    obtain ⟨h1, h2, h3⟩ := ih (y + v * k) (fun w hw => hvs w (List.mem_cons_of_mem _ hw))
    have hsum : 0 ≤ vs.sum * k :=
      mul_nonneg (List.sum_nonneg fun w hw => hvs w (List.mem_cons_of_mem _ hw)) hk
    have hadd : (v + vs.sum) * k = v * k + vs.sum * k := add_mul v vs.sum k
    simp only [sliceBoxes, List.sum_cons]
    refine ⟨?_, ?_, ?_⟩
    · intro b hb
      rcases List.mem_cons.1 hb with hb | hb
      · subst hb
        refine ⟨⟨hx, ?_⟩, rfl, rfl, le_refl _, ?_⟩
        · show y ≤ y + v * k
          linarith
        · show y + v * k ≤ y + (v + vs.sum) * k
          linarith
      · obtain ⟨hp, hx0, hx1, hy0, hy1⟩ := h1 b hb
        exact ⟨hp, hx0, hx1, by linarith, by linarith⟩
    · rw [List.pairwise_cons]
      exact ⟨fun b hb => Or.inr (Or.inr (Or.inl (h1 b hb).2.2.2.1)), h2⟩
    · intro p hp
      rw [List.zip_cons_cons, List.mem_cons] at hp
      rcases hp with hp | hp
      · subst hp
        simp only [Rect.area]
        ring
      · exact h3 p hp

/-- The factor `k = value && extent / value` of `treemapDice` and `treemapSlice`. -/
theorem row_factor (extent : ℚ) (row : List ℚ) (hrow : ∀ v ∈ row, 0 ≤ v) (h : 0 ≤ extent) :
    0 ≤ (if row.sum = 0 then 0 else extent / row.sum) ∧
      row.sum * (if row.sum = 0 then 0 else extent / row.sum) ≤ extent ∧
      (row.sum ≠ 0 → row.sum * (if row.sum = 0 then 0 else extent / row.sum) = extent) := by
  have hs : 0 ≤ row.sum := List.sum_nonneg hrow
  by_cases h0 : row.sum = 0
  · simp [h0, h]
  · rw [if_neg h0, mul_div_cancel₀ _ h0]
    exact ⟨div_nonneg h hs, le_refl _, fun _ => rfl⟩

theorem eq_zero_of_mem_of_sum_eq_zero {row : List ℚ} (hrow : ∀ v ∈ row, 0 ≤ v)
    (hs : row.sum = 0) {v : ℚ} (hv : v ∈ row) : v = 0 :=
  le_antisymm (hs ▸ List.single_le_sum hrow v hv) (hrow v hv)

theorem treemapDice_spec (row : List ℚ) (x0 y0 x1 yn : ℚ) (hrow : ∀ v ∈ row, 0 ≤ v)
    (hx : x0 ≤ x1) (hy : y0 ≤ yn) :
    (∀ b ∈ treemapDice row row.sum x0 y0 x1 yn, b.Proper ∧ b.Inside ⟨x0, y0, x1, yn⟩) ∧
      (treemapDice row row.sum x0 y0 x1 yn).Pairwise Rect.Apart ∧
      ∀ p ∈ row.zip (treemapDice row row.sum x0 y0 x1 yn),
        p.2.area * row.sum = p.1 * ((x1 - x0) * (yn - y0)) ∧ (p.1 = 0 → p.2.area = 0) := by
  obtain ⟨hk, hle, heq⟩ := row_factor (x1 - x0) row hrow (sub_nonneg.2 hx)
  unfold treemapDice
  generalize (if row.sum = 0 then 0 else (x1 - x0) / row.sum) = k at hk hle heq
  obtain ⟨h1, h2, h3⟩ := diceBoxes_spec k y0 yn hk hy row x0 hrow
  refine ⟨?_, h2, ?_⟩
  · intro b hb
    obtain ⟨hp, hy0, hy1, hx0, hx1⟩ := h1 b hb
    exact ⟨hp, hx0, by show b.x1 ≤ x1; linarith, by show y0 ≤ b.y0; rw [hy0],
      by show b.y1 ≤ yn; rw [hy1]⟩
  · intro p hp
    have harea := h3 p hp
    have hmem : p.1 ∈ row := (List.of_mem_zip (a := p.1) (b := p.2) hp).1
    refine ⟨?_, fun h0 => by rw [harea, h0]; ring⟩
    by_cases hs : row.sum = 0
    · rw [hs, eq_zero_of_mem_of_sum_eq_zero hrow hs hmem]; ring
    · rw [harea, ← heq hs]; ring

theorem treemapSlice_spec (row : List ℚ) (x0 y0 xn y1 : ℚ) (hrow : ∀ v ∈ row, 0 ≤ v)
    (hx : x0 ≤ xn) (hy : y0 ≤ y1) :
    (∀ b ∈ treemapSlice row row.sum x0 y0 xn y1, b.Proper ∧ b.Inside ⟨x0, y0, xn, y1⟩) ∧
      (treemapSlice row row.sum x0 y0 xn y1).Pairwise Rect.Apart ∧
      ∀ p ∈ row.zip (treemapSlice row row.sum x0 y0 xn y1),
        p.2.area * row.sum = p.1 * ((xn - x0) * (y1 - y0)) ∧ (p.1 = 0 → p.2.area = 0) := by
  obtain ⟨hk, hle, heq⟩ := row_factor (y1 - y0) row hrow (sub_nonneg.2 hy)
  unfold treemapSlice
  generalize (if row.sum = 0 then 0 else (y1 - y0) / row.sum) = k at hk hle heq
  obtain ⟨h1, h2, h3⟩ := sliceBoxes_spec k x0 xn hk hx row y0 hrow
  refine ⟨?_, h2, ?_⟩
  · intro b hb
    obtain ⟨hp, hx0, hx1, hy0, hy1⟩ := h1 b hb
    exact ⟨hp, by show x0 ≤ b.x0; rw [hx0], by show b.x1 ≤ xn; rw [hx1], hy0,
      by show b.y1 ≤ y1; linarith⟩
  · intro p hp
    have harea := h3 p hp
    have hmem : p.1 ∈ row := (List.of_mem_zip (a := p.1) (b := p.2) hp).1
    refine ⟨?_, fun h0 => by rw [harea, h0]; ring⟩
    by_cases hs : row.sum = 0
    · rw [hs, eq_zero_of_mem_of_sum_eq_zero hrow hs hmem]; ring
    · rw [harea, ← heq hs]; ring

/-- The line `value ? lo += extent * sumValue / value : hi` that ends a row's strip: it
lies between `lo` and `hi` and cuts the extent in the ratio of the values. -/
theorem strip_spec (value sumValue lo hi : ℚ) (h0 : 0 ≤ sumValue) (hsv : sumValue ≤ value)
    (hlh : lo ≤ hi) :
    lo ≤ (if value = 0 then hi else lo + (hi - lo) * sumValue / value) ∧
      (if value = 0 then hi else lo + (hi - lo) * sumValue / value) ≤ hi ∧
      (value ≠ 0 →
        ((if value = 0 then hi else lo + (hi - lo) * sumValue / value) - lo) * value
            = (hi - lo) * sumValue ∧
          (hi - (if value = 0 then hi else lo + (hi - lo) * sumValue / value)) * value
            = (hi - lo) * (value - sumValue)) := by
  by_cases hv : value = 0
  · simp [hv, hlh]
  · have hpos : 0 < value := lt_of_le_of_ne (le_trans h0 hsv) (Ne.symm hv)
    have hd : 0 ≤ hi - lo := sub_nonneg.2 hlh
    have h1 : 0 ≤ (hi - lo) * sumValue / value := div_nonneg (mul_nonneg hd h0) (le_of_lt hpos)
    have h2 : (hi - lo) * sumValue / value ≤ hi - lo := by
      rw [div_le_iff₀ hpos]
      exact mul_le_mul_of_nonneg_left hsv hd
    rw [if_neg hv]
    refine ⟨by linarith, by linarith, fun _ => ⟨?_, ?_⟩⟩
    · field_simp
      ring
    · field_simp
      ring

theorem area_scale {area v s value total part : ℚ} (hs : s ≠ 0)
    (h1 : area * s = v * part) (h2 : part * value = total * s) :
    area * value = v * total := by
  have h : area * value * s = v * total * s := by
    calc area * value * s = area * s * value := by ring
      _ = v * part * value := by rw [h1]
      _ = v * (part * value) := by ring
      _ = v * (total * s) := by rw [h2]
      _ = v * total * s := by ring
  exact mul_right_cancel₀ hs h

/-- What `squarifyRatio` does with non-negative values that `value` covers, in a proper
rectangle: every box is proper and inside the rectangle, any two boxes are apart, the
area of a box is to the rectangle's as the node's value is to `value`, and the box of a
node of value 0 has no area. -/
theorem squarifyRatio_spec (a : ℚ) (fuel : Nat) :
    ∀ (nodes : List ℚ) (value x0 y0 x1 y1 : ℚ), nodes.length ≤ fuel →
      (∀ v ∈ nodes, 0 ≤ v) → nodes.sum ≤ value → x0 ≤ x1 → y0 ≤ y1 →
      (∀ b ∈ squarifyRatio a fuel nodes value x0 y0 x1 y1,
          b.Proper ∧ b.Inside ⟨x0, y0, x1, y1⟩) ∧
        (squarifyRatio a fuel nodes value x0 y0 x1 y1).Pairwise Rect.Apart ∧
        ∀ p ∈ nodes.zip (squarifyRatio a fuel nodes value x0 y0 x1 y1),
          p.2.area * value = p.1 * ((x1 - x0) * (y1 - y0)) ∧ (p.1 = 0 → p.2.area = 0) := by
  induction fuel with
  | zero =>
    intro nodes value x0 y0 x1 y1 h _ _ _ _
    have : nodes = [] := List.length_eq_zero.1 (Nat.le_zero.1 h)
    subst this
    simp [squarifyRatio]
  | succ fuel ih =>
    intro nodes value x0 y0 x1 y1 hlen hnodes hsum hx hy
    cases nodes with
    | nil => simp [squarifyRatio]
    | cons node nodes =>
      obtain ⟨row, rest, hne, happ, hzero, heq⟩ :=
        squarifyRatio_pass a fuel node nodes value x0 y0 x1 y1
      rw [heq, ← happ]
      rw [← happ] at hnodes hsum hlen hzero
      have hrow : ∀ v ∈ row, 0 ≤ v := fun v hv => hnodes v (List.mem_append_left _ hv)
      have hrest : ∀ v ∈ rest, 0 ≤ v := fun v hv => hnodes v (List.mem_append_right _ hv)
      have hrs : 0 ≤ row.sum := List.sum_nonneg hrow
      have hts : 0 ≤ rest.sum := List.sum_nonneg hrest
      by_cases hv0 : value = 0
      · -- a group without value: one row of boxes without area
        have hz : ∀ v ∈ row ++ rest, v = 0 := fun v hv =>
          eq_zero_of_mem_of_sum_eq_zero hnodes
            (le_antisymm (hv0 ▸ hsum) (List.sum_nonneg hnodes)) hv
        have hrest0 : rest = [] := hzero hz
        subst hrest0
        simp only [hv0, if_pos, squarifyRatio_nil, List.append_nil] at hz ⊢
        split
        · obtain ⟨d1, d2, d3⟩ := treemapDice_spec row x0 y0 x1 y1 hrow hx hy
          refine ⟨d1, d2, fun p hp => ?_⟩
          obtain ⟨_, e2⟩ := d3 p hp
          have hp0 : p.1 = 0 := hz p.1 (List.of_mem_zip (a := p.1) (b := p.2) hp).1
          exact ⟨by rw [e2 hp0, hp0]; ring, e2⟩
        · obtain ⟨d1, d2, d3⟩ := treemapSlice_spec row x0 y0 x1 y1 hrow hx hy
          refine ⟨d1, d2, fun p hp => ?_⟩
          obtain ⟨_, e2⟩ := d3 p hp
          have hp0 : p.1 = 0 := hz p.1 (List.of_mem_zip (a := p.1) (b := p.2) hp).1
          exact ⟨by rw [e2 hp0, hp0]; ring, e2⟩
      · rw [List.sum_append] at hsum
        have hlr : rest.length ≤ fuel := by
          have hpos : 0 < row.length := List.length_pos.2 hne
          rw [List.length_append] at hlen
          omega
        simp only [if_neg hv0]
        split
        · have hstrip := strip_spec value row.sum y0 y1 hrs (by linarith) hy
          rw [if_neg hv0] at hstrip
          obtain ⟨hs1, hs2, hs3⟩ := hstrip
          generalize y0 + (y1 - y0) * row.sum / value = yn at hs1 hs2 hs3
          obtain ⟨d1, d2, d3⟩ := treemapDice_spec row x0 y0 x1 yn hrow hx hs1
          obtain ⟨r1, r2, r3⟩ := ih rest (value - row.sum) x0 yn x1 y1 hlr hrest
            (by linarith) hx hs2
          have hdl : row.length = (treemapDice row row.sum x0 y0 x1 yn).length := by
            rw [treemapDice, length_diceBoxes]
          refine ⟨?_, ?_, ?_⟩
          · intro b hb
            rcases List.mem_append.1 hb with hb | hb
            · obtain ⟨hp, i1, i2, i3, i4⟩ := d1 b hb
              exact ⟨hp, i1, i2, i3, le_trans i4 hs2⟩
            · obtain ⟨hp, i1, i2, i3, i4⟩ := r1 b hb
              exact ⟨hp, i1, i2, le_trans hs1 i3, i4⟩
          · rw [List.pairwise_append]
            refine ⟨d2, r2, fun b1 hb1 b2 hb2 => Or.inr (Or.inr (Or.inl ?_))⟩
            exact le_trans (d1 b1 hb1).2.2.2.2 (r1 b2 hb2).2.2.2.1
          · intro p hp
            rw [List.zip_append hdl] at hp
            rcases List.mem_append.1 hp with hp | hp
            · obtain ⟨e1, e2⟩ := d3 p hp
              refine ⟨?_, e2⟩
              by_cases h0 : p.1 = 0
              · rw [e2 h0, h0]; ring
              · have hmem := (List.of_mem_zip (a := p.1) (b := p.2) hp).1
                have hpos : 0 < p.1 := lt_of_le_of_ne (hrow _ hmem) (Ne.symm h0)
                have hle := List.single_le_sum hrow _ hmem
                refine area_scale (ne_of_gt (lt_of_lt_of_le hpos hle)) e1 ?_
                linear_combination (x1 - x0) * (hs3 hv0).1
            · obtain ⟨e1, e2⟩ := r3 p hp
              refine ⟨?_, e2⟩
              by_cases h0 : p.1 = 0
              · rw [e2 h0, h0]; ring
              · have hmem := (List.of_mem_zip (a := p.1) (b := p.2) hp).1
                have hpos : 0 < p.1 := lt_of_le_of_ne (hrest _ hmem) (Ne.symm h0)
                have hle := List.single_le_sum hrest _ hmem
                refine area_scale (s := value - row.sum) (ne_of_gt (by linarith)) e1 ?_
                linear_combination (x1 - x0) * (hs3 hv0).2
        · have hstrip := strip_spec value row.sum x0 x1 hrs (by linarith) hx
          rw [if_neg hv0] at hstrip
          obtain ⟨hs1, hs2, hs3⟩ := hstrip
          generalize x0 + (x1 - x0) * row.sum / value = xn at hs1 hs2 hs3
          obtain ⟨d1, d2, d3⟩ := treemapSlice_spec row x0 y0 xn y1 hrow hs1 hy
          obtain ⟨r1, r2, r3⟩ := ih rest (value - row.sum) xn y0 x1 y1 hlr hrest
            (by linarith) hs2 hy
          have hdl : row.length = (treemapSlice row row.sum x0 y0 xn y1).length := by
            rw [treemapSlice, length_sliceBoxes]
          refine ⟨?_, ?_, ?_⟩
          · intro b hb
            rcases List.mem_append.1 hb with hb | hb
            · obtain ⟨hp, i1, i2, i3, i4⟩ := d1 b hb
              exact ⟨hp, i1, le_trans i2 hs2, i3, i4⟩
            · obtain ⟨hp, i1, i2, i3, i4⟩ := r1 b hb
              exact ⟨hp, le_trans hs1 i1, i2, i3, i4⟩
          · rw [List.pairwise_append]
            refine ⟨d2, r2, fun b1 hb1 b2 hb2 => Or.inl ?_⟩
            exact le_trans (d1 b1 hb1).2.2.1 (r1 b2 hb2).2.1
          · intro p hp
            rw [List.zip_append hdl] at hp
            rcases List.mem_append.1 hp with hp | hp
            · obtain ⟨e1, e2⟩ := d3 p hp
              refine ⟨?_, e2⟩
              by_cases h0 : p.1 = 0
              · rw [e2 h0, h0]; ring
              · have hmem := (List.of_mem_zip (a := p.1) (b := p.2) hp).1
                have hpos : 0 < p.1 := lt_of_le_of_ne (hrow _ hmem) (Ne.symm h0)
                have hle := List.single_le_sum hrow _ hmem
                refine area_scale (ne_of_gt (lt_of_lt_of_le hpos hle)) e1 ?_
                linear_combination (y1 - y0) * (hs3 hv0).1
            · obtain ⟨e1, e2⟩ := r3 p hp
              refine ⟨?_, e2⟩
              by_cases h0 : p.1 = 0
              · rw [e2 h0, h0]; ring
              · have hmem := (List.of_mem_zip (a := p.1) (b := p.2) hp).1
                have hpos : 0 < p.1 := lt_of_le_of_ne (hrest _ hmem) (Ne.symm h0)
                have hle := List.single_le_sum hrest _ hmem
                refine area_scale (s := value - row.sum) (ne_of_gt (by linarith)) e1 ?_
                linear_combination (y1 - y0) * (hs3 hv0).2

theorem treemapSquarify_spec (nodes : List ℚ) (value : ℚ) (r : Rect)
    (hnodes : ∀ v ∈ nodes, 0 ≤ v) (hsum : nodes.sum ≤ value) (hr : r.Proper) :
    (∀ b ∈ treemapSquarify nodes value r, b.Proper ∧ b.Inside r) ∧
      (treemapSquarify nodes value r).Pairwise Rect.Apart ∧
      ∀ p ∈ nodes.zip (treemapSquarify nodes value r),
        p.2.area * value = p.1 * r.area ∧ (p.1 = 0 → p.2.area = 0) :=
  squarifyRatio_spec phi nodes.length nodes value r.x0 r.y0 r.x1 r.y1 (Nat.le_refl _)
    hnodes hsum hr.1 hr.2

/-! ## Layout: the boxes of the children of a node -/

theorem collapse_of_proper {r : Rect} (h : r.Proper) : collapse r = r := by
  obtain ⟨x0, y0, x1, y1⟩ := r
  obtain ⟨hx, hy⟩ := h
  simp only [collapse, if_neg (not_lt.2 hx), if_neg (not_lt.2 hy)]

theorem Node.rect_positionNode (n : Node) (r : Rect) : (positionNode n r).rect = collapse r := by
  rw [Node.rect, Node.box_positionNode]
  rfl

theorem map_value_rect_positionList (cs : List Node) :
    ∀ rs : List Rect, rs.length = cs.length → (∀ b ∈ rs, b.Proper) →
      (positionList cs rs).map (fun c => (c.value, c.rect)) = (cs.map Node.value).zip rs := by
  induction cs with
  | nil => intro rs _ _; simp [positionList]
  | cons c cs ih =>
    intro rs hlen hrs
    cases rs with
    | nil => simp at hlen
    | cons r rs =>
      simp only [positionList, List.map_cons, List.zip_cons_cons]
      rw [ih rs (by simpa using hlen) (fun b hb => hrs b (List.mem_cons_of_mem _ hb)),
        Node.value_positionNode, Node.rect_positionNode,
        collapse_of_proper (hrs r (List.mem_cons_self _ _))]

theorem Rect.Apart.interiorsDisjoint {a b : Rect} (h : a.Apart b) : a.InteriorsDisjoint b := by
  intro px py hab
  obtain ⟨⟨a1, a2, a3, a4⟩, b1, b2, b3, b4⟩ := hab
  rcases h with h | h | h | h <;> linarith

theorem records_trans (d : RawRecord) :
    ∀ r r2 : RawRecord, r ∈ d.records → r2 ∈ r.records → r2 ∈ d.records := by
  induction d using rawRecord_induct with
  | step n v cs ih =>
    intro r r2 hr hr2
    rcases RawRecord.mem_records_iff.1 hr with h | ⟨c, hc, h⟩
    · rw [h] at hr2; exact hr2
    · exact RawRecord.mem_records_iff.2 (Or.inr ⟨c, hc, ih c hc r r2 h hr2⟩)

theorem value_buildNode_nonneg (d : RawRecord) :
    d.NonNegative → ∀ k, 0 ≤ (buildNode d k).value := by
  induction d using rawRecord_induct with
  | step n v cs ih =>
    intro hd k
    rw [buildNode_mk, Node.value]
    refine add_nonneg (hd _ (RawRecord.mem_records_self _)) (List.sum_nonneg ?_)
    intro x hx
    obtain ⟨c, hc, rfl⟩ := List.mem_map.1 hx
    exact ih c hc
      (fun r hr => hd r (RawRecord.mem_records_iff.2 (Or.inr ⟨c, hc, hr⟩))) (k + 1)

/-- In the hierarchy built from records without negative values, the children of a node
have non-negative values and the node's value covers their sum. -/
theorem children_buildNode_sound {d : RawRecord} (hd : d.NonNegative) (k : Nat) :
    (∀ v ∈ (buildNode d k).children.map Node.value, 0 ≤ v) ∧
      ((buildNode d k).children.map Node.value).sum ≤ (buildNode d k).value := by
  constructor
  · intro v hv
    obtain ⟨c, hc, rfl⟩ := List.mem_map.1 hv
    rw [Node.children_buildNode, mem_arraySort] at hc
    obtain ⟨r, hr, rfl⟩ := List.mem_map.1 hc
    exact value_buildNode_nonneg r
      (fun r2 hr2 => hd r2 (RawRecord.mem_records_iff.2 (Or.inr ⟨r, hr, hr2⟩))) (k + 1)
  · rw [Node.value_buildNode d k]
    have := hd d (RawRecord.mem_records_self d)
    linarith

/-- The tiling of the children of a built node, positioned in a proper rectangle. -/
theorem children_positioned_buildNode {d : RawRecord} (hd : d.NonNegative) (j : Nat)
    {r : Rect} (hr : r.Proper) :
    (positionNode (buildNode d j) r).rect = r ∧
      (∀ b ∈ (positionNode (buildNode d j) r).children.map Node.rect, b.Proper ∧ b.Inside r) ∧
      ((positionNode (buildNode d j) r).children.map Node.rect).Pairwise Rect.Apart ∧
      ∀ c ∈ (positionNode (buildNode d j) r).children,
        c.rect.area * (buildNode d j).value = c.value * r.area := by
  obtain ⟨hv, hs⟩ := children_buildNode_sound hd j
  obtain ⟨q1, q2, q3⟩ := treemapSquarify_spec _ _ r hv hs hr
  have hz := map_value_rect_positionList (buildNode d j).children
    (treemapSquarify ((buildNode d j).children.map Node.value) (buildNode d j).value r)
    (by rw [length_treemapSquarify, List.length_map]) (fun b hb => (q1 b hb).1)
  have hrect : (positionNode (buildNode d j) r).children.map Node.rect =
      treemapSquarify ((buildNode d j).children.map Node.value) (buildNode d j).value r := by
    rw [Node.children_positionNode, collapse_of_proper hr, collapse_of_proper hr]
    have h := congrArg (List.map Prod.snd) hz
    rw [List.map_map] at h
    rw [show (Prod.snd ∘ fun c : Node => (c.value, c.rect)) = Node.rect from rfl] at h
    rw [h, ← List.unzip_snd, List.unzip_zip]
    rw [length_treemapSquarify]
  refine ⟨by rw [Node.rect_positionNode, collapse_of_proper hr], ?_, ?_, ?_⟩
  · rw [hrect]; exact q1
  · rw [hrect]; exact q2
  · intro c hc
    rw [Node.children_positionNode, collapse_of_proper hr, collapse_of_proper hr] at hc
    have hmem : (c.value, c.rect) ∈ (positionList (buildNode d j).children
        (treemapSquarify ((buildNode d j).children.map Node.value)
          (buildNode d j).value r)).map (fun c => (c.value, c.rect)) :=
      List.mem_map_of_mem _ hc
    rw [hz] at hmem
    exact (q3 _ hmem).1

/-- Every node of a tree laid out from records without negative values is a built node
positioned in a proper rectangle. -/
theorem mem_nodes_positioned_proper (d : RawRecord) :
    ∀ (j : Nat) (r : Rect) (m : Node), d.NonNegative → r.Proper →
      m ∈ (positionNode (buildNode d j) r).nodes →
      ∃ d2 ∈ d.records, ∃ j2 r2, r2.Proper ∧ m = positionNode (buildNode d2 j2) r2 := by
  induction d using rawRecord_induct with
  | step n v cs ih =>
    intro j r m hd hr hm
    rcases Node.mem_nodes_iff.1 hm with h | ⟨c2, hc2, h⟩
    · exact ⟨_, RawRecord.mem_records_self _, j, r, hr, h⟩
    · have hproper := (children_positioned_buildNode hd j hr).2.1 c2.rect
        (List.mem_map_of_mem _ hc2)
      rw [Node.children_positionNode] at hc2
      obtain ⟨c, hc, r2, _, hcr⟩ := mem_positionList _ _
        (by rw [length_treemapSquarify, List.length_map]) hc2
      subst hcr
      rw [Node.children_buildNode, mem_arraySort] at hc
      obtain ⟨rec, hrec, rfl⟩ := List.mem_map.1 hc
      rw [RawRecord.children] at hrec
      have hsub : rec.NonNegative :=
        fun r3 hr3 => hd r3 (RawRecord.mem_records_iff.2 (Or.inr ⟨rec, hrec, hr3⟩))
      have hr2 : (collapse r2).Proper := by
        rw [← Node.rect_positionNode (buildNode rec (j + 1)) r2]; exact hproper.1
      have hm2 : m ∈ (positionNode (buildNode rec (j + 1)) (collapse r2)).nodes := by
        have hcc : positionNode (buildNode rec (j + 1)) (collapse r2)
            = positionNode (buildNode rec (j + 1)) r2 := by
          cases hb : buildNode rec (j + 1)
          simp only [positionNode, collapse_of_proper hr2]
        rw [hcc]; exact h
      obtain ⟨d2, hd2, j2, r3, hr3, hm3⟩ := ih rec hrec (j + 1) (collapse r2) m hsub hr2 hm2
      exact ⟨d2, RawRecord.mem_records_iff.2 (Or.inr ⟨rec, hrec, hd2⟩), j2, r3, hr3, hm3⟩

theorem proper_canvas : Rect.Proper ⟨0, 0, width, height⟩ := by
  constructor <;> decide!

theorem positioned_of_mem_globalRoot {data : RawRecord} {page : Option View} {p : Node}
    (hdata : data.NonNegative) (hp : p ∈ (plotTreeMap data page).globalRoot.nodes) :
    ∃ d, d.NonNegative ∧ ∃ j r, r.Proper ∧ p = positionNode (buildNode d j) r := by
  rw [globalRoot_plotTreeMap] at hp
  obtain ⟨d, hd, j, r, hr, h⟩ :=
    mem_nodes_positioned_proper data 0 ⟨0, 0, width, height⟩ p hdata proper_canvas hp
  exact ⟨d, fun r2 hr2 => hdata r2 (records_trans data d r2 hd hr2), j, r, hr, h⟩

theorem nonNegative_scenarioTree : scenarioTree.NonNegative := by
  intro r hr
  simp only [scenarioTree, RawRecord.records, RawRecord.records.recordsList, List.cons_append,
    List.nil_append, List.append_nil, List.mem_cons, List.mem_singleton, List.not_mem_nil,
    or_false] at hr
  rcases hr with h | h | h | h | h <;> subst h <;> decide!

/-! ## Tiling: areas and overlap -/

/-- C2, as stated, fails in three ways. In `zeroTree` the two siblings have the value 0
and boxes without area in a canvas of area 1088000. In `ownValueTree` the root carries a
value of its own and its only child covers 408000 of 1088000. In `negativeValueTree`
the siblings `A` (30) and `B` (-10) get the areas 1632000 and 0. -/
theorem area_conservation_counterexample :
    ((plotTreeMap zeroTree none).globalRoot.children.map fun c => c.rect.area) = [0, 0] ∧
      (plotTreeMap zeroTree none).globalRoot.rect.area = 1088000 ∧
      ((plotTreeMap zeroTree none).globalRoot.children.map fun c => c.rect.area).sum
        ≠ (plotTreeMap zeroTree none).globalRoot.rect.area ∧
      ((plotTreeMap ownValueTree none).globalRoot.children.map fun c => c.rect.area)
        = [408000] ∧
      ((plotTreeMap ownValueTree none).globalRoot.children.map fun c => c.rect.area).sum
        ≠ (plotTreeMap ownValueTree none).globalRoot.rect.area ∧
      ((plotTreeMap negativeValueTree none).globalRoot.children.map
          fun c => (c.value, c.rect.area))
        = [(30, 1632000), (-10, 0)] ∧
      (1632000 : ℚ) * (-10) ≠ 0 * 30 := by
  decide!

/-- C2, amended: when no record carries a negative value, for every node `p` of the tree
laid out by `plotTreeMap` the area of each child's box is to the area of the box of `p` as
the child's value is to the value of `p`, so the box areas of any two siblings are in the
ratio of their values; and when the record of `p` carries no value of its own and the
value of `p` is not 0, the areas of the children's boxes add up to the area of the box
of `p`. -/
theorem areas_proportional_to_values (data : RawRecord) (page : Option View)
    (hdata : data.NonNegative) (p : Node)
    (hp : p ∈ (plotTreeMap data page).globalRoot.nodes) :
    (∀ c ∈ p.children, c.rect.area * p.value = c.value * p.rect.area) ∧
      (∀ c1 ∈ p.children, ∀ c2 ∈ p.children,
        c1.rect.area * c2.value = c2.rect.area * c1.value) ∧
      (ownValue p.data = 0 → p.value ≠ 0 →
        (p.children.map fun c => c.rect.area).sum = p.rect.area) := by
  obtain ⟨d, hd, j, r, hr, rfl⟩ := positioned_of_mem_globalRoot hdata hp
  obtain ⟨hrect, _, _, harea⟩ := children_positioned_buildNode hd j hr
  obtain ⟨hnonneg, hsum⟩ := children_buildNode_sound hd j
  rw [hrect, Node.value_positionNode]
  have hvals : (positionNode (buildNode d j) r).children.map Node.value
      = (buildNode d j).children.map Node.value := by
    rw [Node.children_positionNode, map_value_positionList]
  refine ⟨harea, ?_, ?_⟩
  · intro c1 hc1 c2 hc2
    have h1 := harea c1 hc1
    have h2 := harea c2 hc2
    by_cases hV : (buildNode d j).value = 0
    · have hzero : ∀ c ∈ (positionNode (buildNode d j) r).children, c.value = 0 := by
        intro c hc
        have hmem : c.value ∈ (buildNode d j).children.map Node.value := by
          rw [← hvals]; exact List.mem_map_of_mem _ hc
        exact eq_zero_of_mem_of_sum_eq_zero hnonneg
          (le_antisymm (hV ▸ hsum) (List.sum_nonneg hnonneg)) hmem
      rw [hzero c1 hc1, hzero c2 hc2]; ring
    · apply mul_right_cancel₀ hV
      calc c1.rect.area * c2.value * (buildNode d j).value
          = c1.rect.area * (buildNode d j).value * c2.value := by ring
        _ = c1.value * r.area * c2.value := by rw [h1]
        _ = c2.value * r.area * c1.value := by ring
        _ = c2.rect.area * (buildNode d j).value * c1.value := by rw [h2]
        _ = c2.rect.area * c1.value * (buildNode d j).value := by ring
  · intro hown hV
    rw [Node.data_positionNode, Node.data_buildNode] at hown
    have hval : (buildNode d j).value
        = ((positionNode (buildNode d j) r).children.map Node.value).sum := by
      rw [hvals, Node.value_buildNode d j, hown, zero_add]
    apply mul_right_cancel₀ hV
    rw [← List.sum_map_mul_right]
    rw [List.map_congr_left harea, List.sum_map_mul_right, ← hval]
    ring

/-- C2, amended, on the scenario tree: there `A` gets 30% and `B` 70% of the canvas, and
the areas of `B2` and `B1` are as 6 to 1. -/
theorem areas_proportional_to_values_witness :
    scenarioTree.NonNegative ∧
      ((plotTreeMap scenarioTree none).globalRoot.children.map
          fun c => (c.data.name, c.rect.area))
        = [("B", 70 / 100 * (width * height)), ("A", 30 / 100 * (width * height))] ∧
      (((plotTreeMap scenarioTree none).globalRoot.descendant? [0]).map fun b =>
          b.children.map fun c => (c.data.name, c.rect.area))
        = some [("B2", 6 * 108800), ("B1", 1 * 108800)] ∧
      ((plotTreeMap scenarioTree none).globalRoot.children.map fun c => c.rect.area).sum
        = (plotTreeMap scenarioTree none).globalRoot.rect.area :=
  ⟨nonNegative_scenarioTree, by decide!, by decide!,
    (areas_proportional_to_values scenarioTree none nonNegative_scenarioTree _
      (Node.mem_nodes_self _)).2.2 (by decide!) (by decide!)⟩

theorem Node.mem_nodes_of_descendant? (p : Path) :
    ∀ (n m : Node), n.descendant? p = some m → m ∈ n.nodes := by
  induction p with
  | nil =>
    intro n m h
    simp only [Node.descendant?, Option.some.injEq] at h
    exact h ▸ Node.mem_nodes_self n
  | cons i p ih =>
    intro n m h
    simp only [Node.descendant?] at h
    cases hc : n.children.get? i with
    | none => rw [hc] at h; simp at h
    | some c =>
      rw [hc] at h
      exact Node.mem_nodes_iff.2 (Or.inr ⟨c, List.get?_mem hc, ih c m h⟩)

theorem children_ne_nil_of_descendant? {root n : Node} {d : Path}
    (hd : root.descendant? d = some n) (hn : n.children ≠ []) : root.children ≠ [] := by
  cases d with
  | nil =>
    simp only [Node.descendant?, Option.some.injEq] at hd
    rw [hd]; exact hn
  | cons i p =>
    simp only [Node.descendant?] at hd
    intro h0
    rw [h0] at hd
    simp at hd

theorem collapse_canvas : collapse ⟨0, 0, width, height⟩ = ⟨0, 0, width, height⟩ := by
  decide!

theorem rect_root (data : RawRecord) :
    (treemap width height (buildNode data 0)).rect = ⟨0, 0, width, height⟩ := by
  rw [Node.rect, treemap, Node.box_positionNode, collapse_canvas]
  rfl

theorem zoom_of_group_none {s : View} {d : Path} {n : Node}
    (hd : s.globalRoot.descendant? d = some n) (hg : s.group = none) :
    zoom s d =
      View.mk s.globalRoot s.x s.y none s.pointerEvents (some (headerText d n)) s.listeners := by
  unfold zoom
  rw [hd, hg]

theorem zoom_of_render_none {s : View} {d p : Path} {n : Node}
    (hd : s.globalRoot.descendant? d = some n) (hg : s.group = some p)
    (hr : render s.globalRoot d = none) :
    zoom s d =
      View.mk s.globalRoot s.x s.y (some p) false (some (headerText d n)) s.listeners := by
  unfold zoom
  rw [hd, hg, hr]

theorem zoom_of_render_some {s : View} {d p : Path} {n : Node} {els : List Element}
    (hd : s.globalRoot.descendant? d = some n) (hg : s.group = some p)
    (hr : render s.globalRoot d = some els) :
    zoom s d =
      View.mk s.globalRoot ⟨(n.x0, n.x1), s.x.range⟩ ⟨(n.y0, n.y1), s.y.range⟩ (some d) true
        (some (headerText d n)) s.listeners := by
  unfold zoom
  rw [hd, hg, hr]

theorem steady_plotTreeMap (data : RawRecord) (page : Option View) :
    (plotTreeMap data page).Steady data := by
  by_cases h : data.children = []
  · refine ⟨globalRoot_plotTreeMap data page, ?_, ?_, ?_⟩
    · unfold plotTreeMap; split <;> rfl
    · unfold plotTreeMap; split <;> rfl
    · intro p hp
      have hleaf : (treemap width height (buildNode data 0)).children = [] := by
        have hl := length_children_root data
        rw [h] at hl
        exact List.length_eq_zero.1 hl
      have hr := @render_of_leaf (treemap width height (buildNode data 0)) _ [] rfl hleaf
      unfold plotTreeMap at hp
      rw [show (hierarchy data 0).sum.sort = buildNode data 0 from rfl, hr] at hp
      cases hp
  · rw [plotTreeMap_of_children page h]
    refine ⟨rfl, rfl, rfl, ?_⟩
    intro p hp
    have hne : (treemap width height (buildNode data 0)).children ≠ [] := by
      intro h0
      have hl := length_children_root data
      rw [h0] at hl
      exact h (List.length_eq_zero.1 hl.symm)
    have hp2 : p = [] := (Option.some.inj hp).symm
    subst hp2
    refine ⟨rfl, hne, treemap width height (buildNode data 0), rfl, hne, ?_, ?_⟩
    · show ((0 : ℚ), width) = _
      rw [Node.x0, Node.x1, rect_root]
    · show ((0 : ℚ), height) = _
      rw [Node.y0, Node.y1, rect_root]

/-- A zoom into a node that can be rendered, or with no layer at all, keeps the view
steady. -/
theorem steady_zoom {data : RawRecord} {s : View} (h : s.Steady data) (d : Path)
    (hd : ∀ p, s.group = some p → render s.globalRoot d ≠ none) :
    (zoom s d).Steady data := by
  cases hn : s.globalRoot.descendant? d with
  | none =>
    have : zoom s d = s := by unfold zoom; rw [hn]
    rw [this]; exact h
  | some n =>
    cases hg : s.group with
    | none =>
      rw [zoom_of_group_none hn hg]
      exact ⟨h.1, h.2.1, h.2.2.1, fun p hp => by cases hp⟩
    | some p =>
      cases hr : render s.globalRoot d with
      | none => exact absurd hr (hd p hg)
      | some els =>
        rw [zoom_of_render_some hn hg hr]
        obtain ⟨g, hg2, hne, _⟩ := children_of_render hr
        rw [hn] at hg2
        cases hg2
        refine ⟨h.1, h.2.1, h.2.2.1, ?_⟩
        intro q hq
        have hq2 : q = d := (Option.some.inj hq).symm
        subst hq2
        exact ⟨rfl, (h.2.2.2 p hg).2.1, n, hn, hne, rfl, rfl⟩

theorem steady_click {data : RawRecord} {s : View} (h : s.Steady data) (i : Nat) :
    (click s i).Steady data := by
  unfold click
  cases he : (layer s).get? i with
  | none => exact h
  | some e =>
    show (if e.pointer = true then zoom s e.datum else s).Steady data
    by_cases hp : e.pointer = true
    · rw [if_pos hp]
      obtain ⟨p, g, c, _, _, _, _, hc, rfl⟩ := layer_get? he
      refine steady_zoom h _ fun q _ => ?_
      have hne : c.children ≠ [] := by simpa using hp
      rw [render_of_children hc hne]
      exact Option.some_ne_none _
    · rw [if_neg hp]; exact h

theorem steady_back {data : RawRecord} {s : View} (h : s.Steady data) :
    (zoom s []).Steady data := by
  refine steady_zoom h [] fun p hp => ?_
  rw [@render_of_children s.globalRoot _ [] rfl (h.2.2.2 p hp).2.1]
  exact Option.some_ne_none _

theorem steady_resizeAll (data : RawRecord) (k : Nat) :
    ∀ page : Option View, (∃ s, page = some s ∧ s.Steady data) →
      ∃ s, resizeAll data k page = some s ∧ s.Steady data := by
  induction k with
  | zero => intro page h; exact h
  | succ k ih =>
    intro page _
    exact ih _ ⟨_, rfl, steady_plotTreeMap data page⟩

theorem steady_step {data : RawRecord} {s : View} (h : s.Steady data) (e : Event) :
    ∃ t, step data (some s) e = some t ∧ t.Steady data := by
  cases e with
  | click i => exact ⟨_, rfl, steady_click h i⟩
  | back => exact ⟨_, rfl, steady_back h⟩
  | resize => exact steady_resizeAll data _ _ ⟨s, rfl, h⟩

theorem run_append (data : RawRecord) (events : List Event) (e : Event) :
    run data (events ++ [e]) = step data (run data events) e := by
  simp [run, List.foldl_append]

/-- After `initTreemap` and any sequence of events the view is there and steady. -/
theorem steady_run (data : RawRecord) (events : List Event) :
    ∃ s, run data events = some s ∧ s.Steady data := by
  induction events using List.reverseRecOn with
  | nil => exact ⟨_, rfl, steady_plotTreeMap data none⟩
  | append_singleton es e ih =>
    obtain ⟨s, hs, hsteady⟩ := ih
    rw [run_append, hs]
    exact steady_step hsteady e

theorem steady_root {data : RawRecord} {s : View} (h : s.Steady data)
    (hfocus : s.group = some []) :
    s.pointerEvents = true ∧ s.globalRoot.children ≠ [] ∧
      s.x.domain = (s.globalRoot.x0, s.globalRoot.x1) ∧
      s.y.domain = (s.globalRoot.y0, s.globalRoot.y1) ∧
      s.x.domain = (0, width) ∧ s.y.domain = (0, height) := by
  obtain ⟨hroot, _, _, hgroup⟩ := h
  obtain ⟨hpe, hne, n, hn, _, hx, hy⟩ := hgroup [] hfocus
  simp only [Node.descendant?, Option.some.injEq] at hn
  subst hn
  refine ⟨hpe, hne, hx, hy, ?_, ?_⟩
  · rw [hx, Node.x0, Node.x1, hroot, rect_root]
  · rw [hy, Node.y0, Node.y1, hroot, rect_root]

theorem zoom_range (s : View) (d : Path) :
    (zoom s d).x.range = s.x.range ∧ (zoom s d).y.range = s.y.range := by
  unfold zoom
  split
  · exact ⟨rfl, rfl⟩
  · split <;> exact ⟨rfl, rfl⟩

theorem zoom_group_isSome (s : View) (d : Path) :
    (zoom s d).group.isSome = s.group.isSome := by
  cases hn : s.globalRoot.descendant? d with
  | none =>
    have : zoom s d = s := by unfold zoom; rw [hn]
    rw [this]
  | some n =>
    cases hg : s.group with
    | none => rw [zoom_of_group_none hn hg]
    | some p =>
      cases hr : render s.globalRoot d with
      | none => rw [zoom_of_render_none hn hg hr]
      | some els => rw [zoom_of_render_some hn hg hr]; rfl

theorem foldl_zoom_keeps (ds : List Path) :
    ∀ s : View, (ds.foldl zoom s).globalRoot = s.globalRoot ∧
      (ds.foldl zoom s).x.range = s.x.range ∧ (ds.foldl zoom s).y.range = s.y.range ∧
      (ds.foldl zoom s).group.isSome = s.group.isSome := by
  induction ds with
  | nil => intro s; exact ⟨rfl, rfl, rfl, rfl⟩
  | cons d ds ih =>
    intro s
    rw [List.foldl_cons]
    obtain ⟨h1, h2, h3, h4⟩ := ih (zoom s d)
    exact ⟨h1.trans (zoom_globalRoot s d), h2.trans (zoom_range s d).1,
      h3.trans (zoom_range s d).2, h4.trans (zoom_group_isSome s d)⟩

theorem box_of_mem_globalRoot {data : RawRecord} {page : Option View} {n : Node}
    (hn : n ∈ (plotTreeMap data page).globalRoot.nodes) : ∃ b, n.box = some b := by
  obtain ⟨r, _, j, r2, rfl⟩ := mem_nodes_globalRoot hn
  exact ⟨_, Node.box_positionNode _ _⟩

/-! ## The view: zooming in and back -/

theorem foldl_zoom_no_layer (ds : List Path) :
    ∀ s : View, s.group = none →
      (ds.foldl zoom s).group = none ∧ (ds.foldl zoom s).x = s.x ∧ (ds.foldl zoom s).y = s.y := by
  induction ds with
  | nil => intro s h; exact ⟨h, rfl, rfl⟩
  | cons d ds ih =>
    intro s h
    rw [List.foldl_cons]
    cases hn : s.globalRoot.descendant? d with
    | none =>
      have : zoom s d = s := by unfold zoom; rw [hn]
      rw [this]; exact ih s h
    | some n =>
      rw [zoom_of_group_none hn h]
      exact ih _ rfl

/-- C7: whatever zoom calls have run since `plotTreeMap`, after `zoom(d)` for a node `d` that
`zoom` is called with (a rendered node with children, or the root) the domain of `x` is
`[d.x0, d.x1]` and the domain of `y` is `[d.y0, d.y1]`, the coordinates of the box `d` was
laid out with, and both pixel ranges are still `[0, width]` and `[0, height]`, as they
were before the call. -/
theorem zoom_retargets_domain_only (data : RawRecord) (page : Option View) (ds : List Path)
    (d : Path) (n : Node) (hd : (plotTreeMap data page).globalRoot.descendant? d = some n)
    (hn : n.children ≠ [] ∨ d = []) :
    ∃ b, n.box = some b ∧
      (zoom (ds.foldl zoom (plotTreeMap data page)) d).x.domain = (b.x0, b.x1) ∧
      (zoom (ds.foldl zoom (plotTreeMap data page)) d).y.domain = (b.y0, b.y1) ∧
      (zoom (ds.foldl zoom (plotTreeMap data page)) d).x.range = (0, width) ∧
      (zoom (ds.foldl zoom (plotTreeMap data page)) d).y.range = (0, height) ∧
      (ds.foldl zoom (plotTreeMap data page)).x.range = (0, width) ∧
      (ds.foldl zoom (plotTreeMap data page)).y.range = (0, height) := by
  obtain ⟨b, hb⟩ := box_of_mem_globalRoot (Node.mem_nodes_of_descendant? d _ n hd)
  obtain ⟨k1, k2, k3, k4⟩ := foldl_zoom_keeps ds (plotTreeMap data page)
  have hsteady := steady_plotTreeMap data page
  rw [hsteady.2.1] at k2
  rw [hsteady.2.2.1] at k3
  have hd2 : (ds.foldl zoom (plotTreeMap data page)).globalRoot.descendant? d = some n := by
    rw [k1]; exact hd
  have hzr := zoom_range (ds.foldl zoom (plotTreeMap data page)) d
  refine ⟨b, hb, ?_, ?_, hzr.1.trans k2, hzr.2.trans k3, k2, k3⟩
  all_goals
    cases hg : (plotTreeMap data page).group with
    | none =>
      -- `render` threw in `plotTreeMap`: the root has no children, so `d` is the root
      obtain ⟨g1, g2, g3⟩ := foldl_zoom_no_layer ds _ hg
      have hroot : (plotTreeMap data page).globalRoot.children = [] := by
        by_contra hne
        have hdata : data.children ≠ [] := by
          intro h0
          rw [globalRoot_plotTreeMap] at hne
          have hl := length_children_root data
          rw [h0] at hl
          exact hne (List.length_eq_zero.1 hl)
        rw [plotTreeMap_of_children page hdata] at hg
        cases hg
      have hdnil : d = [] := by
        rcases hn with hn | hn
        · exact absurd hroot (children_ne_nil_of_descendant? hd hn)
        · exact hn
      subst hdnil
      simp only [Node.descendant?, Option.some.injEq] at hd
      subst hd
      rw [zoom_of_group_none hd2 g1]
      have hrect : (plotTreeMap data page).globalRoot.rect = ⟨0, 0, width, height⟩ := by
        rw [globalRoot_plotTreeMap, rect_root]
      have hbb : b = ⟨0, 0, width, height⟩ := by
        have h := hrect
        rw [Node.rect, hb] at h
        exact h
      subst hbb
      first
        | (show (ds.foldl zoom (plotTreeMap data page)).x.domain = _
           rw [g2]; unfold plotTreeMap; split <;> rfl)
        | (show (ds.foldl zoom (plotTreeMap data page)).y.domain = _
           rw [g3]; unfold plotTreeMap; split <;> rfl)
    | some q =>
      rw [hg] at k4
      obtain ⟨p, hp⟩ := Option.isSome_iff_exists.1 k4
      have hkids : n.children ≠ [] := by
        rcases hn with hn | hn
        · exact hn
        · subst hn
          simp only [Node.descendant?, Option.some.injEq] at hd
          subst hd
          exact (hsteady.2.2.2 q hg).2.1
      rw [zoom_of_render_some hd2 hp (render_of_children hd2 hkids)]
      first
        | (show (n.x0, n.x1) = (b.x0, b.x1)
           simp [Node.x0, Node.x1, Node.rect, hb])
        | (show (n.y0, n.y1) = (b.y0, b.y1)
           simp [Node.y0, Node.y1, Node.rect, hb])

/-- C7 on the scenario tree: zooming into `B` after a zoom into `B` and one to the root
sets the domain of `x` to `[0, 1120]`, the extent of the box of `B`. -/
theorem zoom_retargets_domain_only_witness :
    ((plotTreeMap scenarioTree none).globalRoot.descendant? [0]).map
          (fun n => (n.box, n.children.length))
        = some (some ⟨0, 0, 1120, 680⟩, 2) ∧
      (zoom ([[0], []].foldl zoom (plotTreeMap scenarioTree none)) [0]).x.domain = (0, 1120) ∧
      (zoom ([[0], []].foldl zoom (plotTreeMap scenarioTree none)) [0]).x.range
        = (0, width) := by
  have h : ((plotTreeMap scenarioTree none).globalRoot.descendant? [0]).map
      (fun n => (n.box, n.children.length)) = some (some ⟨0, 0, 1120, 680⟩, 2) := by decide!
  obtain ⟨n, hn, hf⟩ := Option.map_eq_some'.1 h
  obtain ⟨hbox, hlen⟩ := Prod.mk.inj hf
  obtain ⟨b, hb, hx, _, hr, _⟩ := zoom_retargets_domain_only scenarioTree none [[0], []] [0]
    n hn (Or.inl fun h0 => by rw [h0] at hlen; cases hlen)
  rw [hbox] at hb
  cases hb
  exact ⟨h, hx, hr⟩

theorem zoom_root_twice (s : View) : zoom (zoom s []) [] = zoom s [] := by
  have hn : s.globalRoot.descendant? [] = some s.globalRoot := rfl
  cases hg : s.group with
  | none =>
    rw [zoom_of_group_none hn hg]
    exact zoom_of_group_none (s := View.mk s.globalRoot s.x s.y none s.pointerEvents
      (some (headerText [] s.globalRoot)) s.listeners) rfl rfl
  | some p =>
    cases hr : render s.globalRoot [] with
    | none =>
      rw [zoom_of_render_none hn hg hr]
      exact zoom_of_render_none (s := View.mk s.globalRoot s.x s.y (some p) false
        (some (headerText [] s.globalRoot)) s.listeners) rfl rfl hr
    | some els =>
      rw [zoom_of_render_some hn hg hr]
      exact zoom_of_render_some (s := View.mk s.globalRoot
        ⟨(s.globalRoot.x0, s.globalRoot.x1), s.x.range⟩
        ⟨(s.globalRoot.y0, s.globalRoot.y1), s.y.range⟩ (some []) true
        (some (headerText [] s.globalRoot)) s.listeners) rfl rfl hr

theorem iterate_resetZoom (s : View) (k : Nat) :
    resetZoom^[k + 1] (some s) = resetZoom (some s) := by
  induction k with
  | zero => rfl
  | succ k ih =>
    rw [Function.iterate_succ_apply', ih]
    show some (zoom (zoom s []) []) = some (zoom s [])
    rw [zoom_root_twice]

/-- C9: with the root in focus, after any events, the back action leaves the focus at the
root and both domains as they are, `[0, width]` and `[0, height]`; applied any number of
times it gives the state that applying it once gives. -/
theorem reset_at_root_idempotent (data : RawRecord) (events : List Event) (s : View)
    (hs : run data events = some s) (hfocus : s.group = some []) :
    ∃ t, resetZoom (some s) = some t ∧ t.group = some [] ∧
      t.x.domain = s.x.domain ∧ t.y.domain = s.y.domain ∧
      s.x.domain = (0, width) ∧ s.y.domain = (0, height) ∧
      ∀ k : Nat, resetZoom^[k + 1] (some s) = resetZoom (some s) := by
  obtain ⟨s2, hs2, hsteady⟩ := steady_run data events
  rw [hs] at hs2
  cases hs2
  obtain ⟨_, hne, hx, hy, hx0, hy0⟩ := steady_root hsteady hfocus
  have hz := @zoom_of_render_some s [] [] s.globalRoot _ rfl hfocus
    (@render_of_children s.globalRoot _ [] rfl hne)
  refine ⟨zoom s [], rfl, ?_, ?_, ?_, hx0, hy0, iterate_resetZoom s⟩
  · rw [hz]
  · rw [hz]; exact hx.symm
  · rw [hz]; exact hy.symm

/-- C9 on the scenario tree, after drilling into `B` and going back. -/
theorem reset_at_root_idempotent_witness :
    (run scenarioTree [.click 0, .back]).map View.group = some (some []) ∧
      ∃ s t, run scenarioTree [.click 0, .back] = some s ∧ resetZoom (some s) = some t ∧
        t.group = some [] ∧ t.x.domain = (0, width) ∧ t.y.domain = (0, height) := by
  have h : (run scenarioTree [.click 0, .back]).map View.group = some (some []) := by decide!
  refine ⟨h, ?_⟩
  obtain ⟨s, hs, _⟩ := steady_run scenarioTree [.click 0, .back]
  rw [hs] at h
  obtain ⟨t, ht, hgt, hx, hy, hx0, hy0, _⟩ :=
    reset_at_root_idempotent scenarioTree [.click 0, .back] s hs (Option.some.inj h)
  exact ⟨s, t, hs, ht, hgt, hx.trans hx0, hy.trans hy0⟩

/-- C10: a rendered node (the node `c` bound to the `i`-th element of the layer) has the
click handler that calls `zoom` exactly when it has children, and a click on one without
children changes nothing: the state, with the focus and both domains, stays as it is. -/
theorem click_on_leaf_is_noop (s : View) (i : Nat) (e : Element) (c : Node)
    (he : (layer s).get? i = some e) (hc : s.globalRoot.descendant? e.datum = some c) :
    (e.pointer = true ↔ c.children ≠ []) ∧
      (c.children = [] → click s i = s) ∧
      (c.children ≠ [] → click s i = zoom s e.datum) := by
  obtain ⟨p, g, c2, _, _, _, _, hc2, he2⟩ := layer_get? he
  have hcc : c2 = c := by
    rw [he2] at hc
    rw [hc2] at hc
    exact Option.some.inj hc
  subst hcc
  have hiff : e.pointer = true ↔ c2.children ≠ [] := by
    rw [he2]; simp
  refine ⟨hiff, ?_, ?_⟩
  · intro hleaf
    have hp : ¬e.pointer = true := fun h => hiff.1 h hleaf
    unfold click
    rw [he]
    show (if e.pointer = true then zoom s e.datum else s) = s
    rw [if_neg hp]
  · intro hkids
    unfold click
    rw [he]
    show (if e.pointer = true then zoom s e.datum else s) = zoom s e.datum
    rw [if_pos (hiff.2 hkids)]

/-- C10 on the scenario tree: the second element of the first layer is the leaf `A`. -/
theorem click_on_leaf_is_noop_witness :
    (layer (plotTreeMap scenarioTree none)).get? 1 = some ⟨[1], false⟩ ∧
      ((plotTreeMap scenarioTree none).globalRoot.descendant? [1]).map
          (fun n => (n.data.name, n.children.length)) = some ("A", 0) ∧
      click (plotTreeMap scenarioTree none) 1 = plotTreeMap scenarioTree none := by
  have h : ((plotTreeMap scenarioTree none).globalRoot.descendant? [1]).map
      (fun n => (n.data.name, n.children.length)) = some ("A", 0) := by decide!
  obtain ⟨n, hn, hf⟩ := Option.map_eq_some'.1 h
  obtain ⟨_, hlen⟩ := Prod.mk.inj hf
  exact ⟨by decide!, h,
    (click_on_leaf_is_noop (plotTreeMap scenarioTree none) 1 ⟨[1], false⟩ n
      (by decide!) hn).2.1 (List.length_eq_zero.1 hlen)⟩

/-! ## Pixels: the rounded mappers -/

theorem mathRound_mono {u v : ℚ} (h : u ≤ v) : mathRound u ≤ mathRound v := by
  unfold mathRound
  exact_mod_cast Int.floor_mono (by linarith)

theorem mathRound_intCast (k : ℤ) : mathRound k = k := by
  unfold mathRound
  have h : ⌊(k : ℚ) + 1 / 2⌋ = k := by
    rw [Int.floor_eq_iff]
    constructor <;> linarith
  rw [h]

theorem normalize_mono {a b u v : ℚ} (hab : a ≤ b) (h : u ≤ v) :
    normalize a b u ≤ normalize a b v := by
  unfold normalize
  by_cases h0 : b - a = 0
  · rw [if_pos h0, if_pos h0]
  · rw [if_neg h0, if_neg h0]
    have hpos : 0 < b - a := lt_of_le_of_ne (sub_nonneg.2 hab) (Ne.symm h0)
    exact div_le_div_of_nonneg_right (by linarith) hpos.le

theorem interpolateRound_mono {a b t1 t2 : ℚ} (hab : a ≤ b) (h : t1 ≤ t2) :
    interpolateRound a b t1 ≤ interpolateRound a b t2 := by
  unfold interpolateRound
  apply mathRound_mono
  nlinarith [mul_nonneg (sub_nonneg.2 hab) (sub_nonneg.2 h)]

/-- A mapper with an ascending (or constant) domain and an ascending range is monotone
non-decreasing. -/
theorem Scale.apply_mono (s : Scale) (hd : s.domain.1 ≤ s.domain.2)
    (hr : s.range.1 ≤ s.range.2) {u v : ℚ} (h : u ≤ v) : s.apply u ≤ s.apply v := by
  unfold Scale.apply
  rw [if_neg (not_lt.2 hd), if_neg (not_lt.2 hd)]
  exact interpolateRound_mono hr (normalize_mono hd h)

/-- A mapper with a strictly ascending domain sends the ends of its domain to the rounded
ends of its range. -/
theorem Scale.apply_ends (s : Scale) (hd : s.domain.1 < s.domain.2) :
    s.apply s.domain.1 = mathRound s.range.1 ∧ s.apply s.domain.2 = mathRound s.range.2 := by
  have hne : s.domain.2 - s.domain.1 ≠ 0 := (sub_pos.2 hd).ne.symm
  unfold Scale.apply
  rw [if_neg (not_lt.2 hd.le), if_neg (not_lt.2 hd.le)]
  unfold interpolateRound normalize
  rw [if_neg hne, if_neg hne, sub_self, zero_div, div_self hne]
  constructor
  · congr 1; ring
  · congr 1; ring

theorem mathRound_zero : mathRound 0 = 0 := by
  have h := mathRound_intCast 0
  simpa using h

theorem mathRound_width : mathRound width = width := by
  have h := mathRound_intCast 1600
  simpa [width] using h

theorem mathRound_height : mathRound height = height := by
  have h := mathRound_intCast 680
  simpa [height] using h

/-- Under monotone mappers the pixel rectangle of a node with a proper box runs from the
image of its first corner to the image of its second corner. -/
theorem position_of_mono {x y : Scale} (hx : ∀ u v : ℚ, u ≤ v → x.apply u ≤ x.apply v)
    (hy : ∀ u v : ℚ, u ≤ v → y.apply u ≤ y.apply v) {c : Node} (hc : c.rect.Proper) :
    position x y c =
      ⟨x.apply c.x0, y.apply c.y0, x.apply c.x1 - x.apply c.x0,
        y.apply c.y1 - y.apply c.y0⟩ := by
  have h1 : x.apply c.x0 ≤ x.apply c.x1 := hx _ _ hc.1
  have h2 : y.apply c.y0 ≤ y.apply c.y1 := hy _ _ hc.2
  unfold position
  rw [max_eq_right (sub_nonneg.2 h1), max_eq_right (sub_nonneg.2 h2)]

/-- Under monotone mappers the pixel rectangle of a box inside another lies within the
pixel rectangle of the other. -/
theorem within_of_inside {x y : Scale} (hx : ∀ u v : ℚ, u ≤ v → x.apply u ≤ x.apply v)
    (hy : ∀ u v : ℚ, u ≤ v → y.apply u ≤ y.apply v) {c n : Node} (hc : c.rect.Proper)
    (hn : n.rect.Proper) (hin : c.rect.Inside n.rect) :
    (position x y c).Within (position x y n) := by
  rw [position_of_mono hx hy hc, position_of_mono hx hy hn]
  refine ⟨hx _ _ hin.1, ?_, hy _ _ hin.2.2.1, ?_⟩
  · show x.apply c.x0 + (x.apply c.x1 - x.apply c.x0) ≤
      x.apply n.x0 + (x.apply n.x1 - x.apply n.x0)
    have h : x.apply c.x1 ≤ x.apply n.x1 := hx _ _ hin.2.1
    linarith
  · show y.apply c.y0 + (y.apply c.y1 - y.apply c.y0) ≤
      y.apply n.y0 + (y.apply n.y1 - y.apply n.y0)
    have h : y.apply c.y1 ≤ y.apply n.y1 := hy _ _ hin.2.2.2
    linarith

/-! ## The view: listeners, and what every run leaves -/

theorem zoom_listeners (s : View) (d : Path) : (zoom s d).listeners = s.listeners := by
  unfold zoom
  split
  · rfl
  · split <;> rfl

theorem click_listeners (s : View) (i : Nat) : (click s i).listeners = s.listeners := by
  unfold click
  cases he : (layer s).get? i with
  | none => rfl
  | some e =>
    show (if e.pointer = true then zoom s e.datum else s).listeners = _
    split
    · exact zoom_listeners _ _
    · rfl

theorem click_group_isSome (s : View) (i : Nat) :
    (click s i).group.isSome = s.group.isSome := by
  unfold click
  cases he : (layer s).get? i with
  | none => rfl
  | some e =>
    show (if e.pointer = true then zoom s e.datum else s).group.isSome = _
    split
    · exact zoom_group_isSome _ _
    · rfl

/-- The listeners of one `resize` event run one after the other, each on the page the one
before has left. -/
theorem resizeAll_eq_iterate (data : RawRecord) (k : Nat) :
    ∀ page : Option View,
      resizeAll data k page = (fun pg => some (plotTreeMap data pg))^[k] page := by
  induction k with
  | zero => intro page; rfl
  | succ k ih =>
    intro page
    rw [Function.iterate_succ_apply]
    exact ih _

/-- With at least one listener a `resize` event ends in a run of `plotTreeMap`, and every
listener that ran has registered one more. -/
theorem resizeAll_succ {data : RawRecord} (hroot : data.children ≠ []) (k : Nat) :
    ∀ page : Option View, ∃ t, resizeAll data (k + 1) page = some (plotTreeMap data t) ∧
      (plotTreeMap data t).listeners = (page.map View.listeners).getD 0 + (k + 1) := by
  induction k with
  | zero =>
    intro page
    refine ⟨page, rfl, ?_⟩
    rw [plotTreeMap_of_children page hroot]
  | succ k ih =>
    intro page
    obtain ⟨t, ht, hl⟩ := ih (some (plotTreeMap data page))
    refine ⟨t, ht, ?_⟩
    rw [hl, plotTreeMap_of_children page hroot]
    show (page.map View.listeners).getD 0 + 1 + (k + 1) = _
    omega

theorem resizeCount_append (es : List Event) (e : Event) :
    resizeCount (es ++ [e]) = resizeCount es + resizeCount [e] := by
  induction es with
  | nil => simp [resizeCount]
  | cons a es ih =>
    cases a with
    | click i => exact ih
    | back => exact ih
    | resize =>
      show resizeCount (es ++ [e]) + 1 = resizeCount es + 1 + resizeCount [e]
      rw [ih]
      omega

/-- When the root record has children, every run leaves a view with a layer, and as many
`resize` listeners as two to the number of `resize` events. -/
theorem run_listeners {data : RawRecord} (hroot : data.children ≠ []) (events : List Event) :
    ∃ s, run data events = some s ∧ s.group.isSome = true ∧
      s.listeners = 2 ^ resizeCount events := by
  induction events using List.reverseRecOn with
  | nil =>
    refine ⟨_, rfl, ?_, ?_⟩ <;> rw [plotTreeMap_of_children none hroot] <;> rfl
  | append_singleton es e ih =>
    obtain ⟨s, hs, hg, hl⟩ := ih
    rw [run_append, hs, resizeCount_append]
    cases e with
    | click i =>
      exact ⟨_, rfl, (click_group_isSome s i).trans hg, (click_listeners s i).trans hl⟩
    | back =>
      exact ⟨_, rfl, (zoom_group_isSome s []).trans hg, (zoom_listeners s []).trans hl⟩
    | resize =>
      obtain ⟨m, hm⟩ : ∃ m, s.listeners = m + 1 :=
        ⟨s.listeners - 1, by have := Nat.one_le_two_pow (n := resizeCount es); omega⟩
      obtain ⟨t, ht, htl⟩ := resizeAll_succ hroot m (some s)
      refine ⟨_, (by show resizeAll data s.listeners (some s) = _; rw [hm]; exact ht), ?_, ?_⟩
      · rw [plotTreeMap_of_children t hroot]; rfl
      · rw [htl]
        show s.listeners + (m + 1) = 2 ^ (resizeCount es + 1)
        rw [← hm, hl, pow_succ]
        omega

/-- C15: when the root record has children (so that `plotTreeMap` runs to its last
statement), every call of `plotTreeMap` leaves one more `resize` listener than there was,
and neither `zoom` nor a click removes one; so after `initTreemap` and events with `k - 1`
`resize` events among them there are `2 ^ (k - 1)` listeners, the next `resize` event (the
`k`-th) runs `plotTreeMap` `2 ^ (k - 1)` times, one run after the other, and leaves
`2 ^ k` listeners. -/
theorem resize_listeners_accumulate (data : RawRecord) (hroot : data.children ≠ [])
    (events : List Event) :
    (∀ page, (plotTreeMap data page).listeners = (page.map View.listeners).getD 0 + 1) ∧
      (∀ (t : View) (d : Path), (zoom t d).listeners = t.listeners) ∧
      (∀ (t : View) (i : Nat), (click t i).listeners = t.listeners) ∧
      ∃ s, run data events = some s ∧ s.listeners = 2 ^ resizeCount events ∧
        step data (some s) .resize =
          (fun page => some (plotTreeMap data page))^[2 ^ resizeCount events] (some s) ∧
        ∃ t, run data (events ++ [.resize]) = some t ∧
          t.listeners = 2 ^ (resizeCount events + 1) := by
  refine ⟨fun page => by rw [plotTreeMap_of_children page hroot], zoom_listeners,
    click_listeners, ?_⟩
  obtain ⟨s, hs, _, hl⟩ := run_listeners hroot events
  obtain ⟨t, ht, _, htl⟩ := run_listeners hroot (events ++ [.resize])
  refine ⟨s, hs, hl, ?_, t, ht, ?_⟩
  · rw [← hl]
    exact resizeAll_eq_iterate data s.listeners (some s)
  · rw [htl, resizeCount_append]
    rfl

theorem resize_listeners_accumulate_witness :
    scenarioTree.children ≠ [] ∧
      ∃ s, run scenarioTree [.resize, .back] = some s ∧ s.listeners = 2 ∧
        ∃ t, run scenarioTree [.resize, .back, .resize] = some t ∧ t.listeners = 4 := by
  have hroot : scenarioTree.children ≠ [] := List.cons_ne_nil _ _
  obtain ⟨_, _, _, s, hs, hl, _, t, ht, htl⟩ :=
    resize_listeners_accumulate scenarioTree hroot [.resize, .back]
  exact ⟨hroot, s, hs, hl, t, ht, htl⟩

/-! ## The view: the layout through zooms and resizes -/

/-- The placement `zoom(d)` ends in, for a node `d` with children and a view with a layer. -/
theorem shown_zoom {s : View} {d p : Path} {n : Node}
    (hd : s.globalRoot.descendant? d = some n) (hg : s.group = some p)
    (hne : n.children ≠ []) :
    shown (zoom s d) = some (n.children.map
      (position ⟨(n.x0, n.x1), s.x.range⟩ ⟨(n.y0, n.y1), s.y.range⟩)) := by
  rw [zoom_of_render_some hd hg (render_of_children hd hne)]
  show (s.globalRoot.descendant? d).map _ = _
  rw [hd]
  rfl

theorem plotTreeMap_of_leaf {data : RawRecord} (page : Option View)
    (h : data.children = []) : (plotTreeMap data page).group = none := by
  have hleaf : (treemap width height (buildNode data 0)).children = [] := by
    have hl := length_children_root data
    rw [h] at hl
    exact List.length_eq_zero.1 hl
  have hr := @render_of_leaf (treemap width height (buildNode data 0)) _ [] rfl hleaf
  unfold plotTreeMap
  rw [show (hierarchy data 0).sum.sort = buildNode data 0 from rfl, hr]

/-- C11: no zoom call changes the tree or a box: after the layout of `plotTreeMap` and any
sequence of `zoom` calls (clicks and `resetZoom` among them) the tree is the one laid out
first, every node has the box first computed for it, and a `resetZoom` then shows the
children of the root exactly where the initial rendering placed them. -/
theorem layout_continuity (data : RawRecord) (page : Option View) (ds : List Path) :
    (ds.foldl zoom (plotTreeMap data page)).globalRoot =
        treemap width height (hierarchy data 0).sum.sort ∧
      (∀ p : Path,
        ((ds.foldl zoom (plotTreeMap data page)).globalRoot.descendant? p).map Node.box =
          ((plotTreeMap data page).globalRoot.descendant? p).map Node.box) ∧
      shown (zoom (ds.foldl zoom (plotTreeMap data page)) []) =
        shown (plotTreeMap data page) := by
  obtain ⟨h1, h2, h3, h4⟩ := foldl_zoom_keeps ds (plotTreeMap data page)
  refine ⟨h1.trans (globalRoot_plotTreeMap data page), fun p => by rw [h1], ?_⟩
  by_cases h : data.children = []
  · have h0 := plotTreeMap_of_leaf page h
    have hg := (foldl_zoom_no_layer ds _ h0).1
    have hz : (zoom (ds.foldl zoom (plotTreeMap data page)) []).group = none := by
      have hs := zoom_group_isSome (ds.foldl zoom (plotTreeMap data page)) []
      rw [hg] at hs
      exact Option.not_isSome_iff_eq_none.1 (by rw [hs]; simp)
    unfold shown
    rw [hz, h0]
  · have hne : (treemap width height (buildNode data 0)).children ≠ [] := by
      intro h0
      have hl := length_children_root data
      rw [h0] at hl
      exact h (List.length_eq_zero.1 hl.symm)
    have e0 := plotTreeMap_of_children page h
    have h1b := h1.trans (globalRoot_plotTreeMap data page)
    have h2b : (ds.foldl zoom (plotTreeMap data page)).x.range = (0, width) :=
      h2.trans (by rw [e0])
    have h3b : (ds.foldl zoom (plotTreeMap data page)).y.range = (0, height) :=
      h3.trans (by rw [e0])
    obtain ⟨p, hp⟩ := Option.isSome_iff_exists.1 (h4.trans (by rw [e0]; rfl))
    have hsz := @shown_zoom (ds.foldl zoom (plotTreeMap data page)) [] p _ rfl hp
      (by rw [h1b]; exact hne)
    rw [hsz, h1b, h2b, h3b, Node.x0, Node.x1, Node.y0, Node.y1, rect_root, e0]
    rfl

/-- C12, as stated, fails: after a resize of the window to 800 by 400 the tree of the
scenario is laid out in the canvas of 1600 by 680 again, not in one of the new size, and
the pixel ranges of the mappers are `[0, 1600]` and `[0, 680]`. -/
theorem resize_new_canvas_counterexample :
    (resizeTo scenarioTree (800, 400) (initTreemap scenarioTree)).map
        (fun t => (t.globalRoot.rect, t.x.range, t.y.range))
      = some (⟨0, 0, 1600, 680⟩, (0, 1600), (0, 680)) ∧
    (⟨0, 0, 1600, 680⟩ : Rect) ≠ ⟨0, 0, 800, 400⟩ := by
  constructor <;> decide!

/-- C12, amended: when the root record has children, a resize of the window, to whatever
size and after whatever events, rebuilds the hierarchy from the raw data and lays it out in
the fixed canvas of `width` by `height` (1600 by 680); afterwards the layer shows the
children of the root, the domains are `[0, width]` and `[0, height]`, and the placement
is the one of the first load. -/
theorem resize_rebuilds_on_fixed_canvas (data : RawRecord) (hroot : data.children ≠ [])
    (events : List Event) (s : View) (hs : run data events = some s) (viewport : ℚ × ℚ) :
    ∃ t, resizeTo data viewport (some s) = some t ∧
      t.globalRoot = treemap width height (hierarchy data 0).sum.sort ∧
      t.globalRoot.rect = ⟨0, 0, width, height⟩ ∧
      t.group = some [] ∧
      t.x = ⟨(0, width), (0, width)⟩ ∧ t.y = ⟨(0, height), (0, height)⟩ ∧
      shown t = shown (plotTreeMap data none) := by
  obtain ⟨s2, hs2, _, hl⟩ := run_listeners hroot events
  rw [hs] at hs2
  cases hs2
  obtain ⟨m, hm⟩ : ∃ m, s.listeners = m + 1 :=
    ⟨s.listeners - 1, by have := Nat.one_le_two_pow (n := resizeCount events); omega⟩
  obtain ⟨t, ht, _⟩ := resizeAll_succ hroot m (some s)
  refine ⟨plotTreeMap data t,
    (by show resizeAll data s.listeners (some s) = _; rw [hm]; exact ht), ?_⟩
  rw [plotTreeMap_of_children t hroot, plotTreeMap_of_children none hroot]
  exact ⟨rfl, rect_root data, rfl, rfl, rfl, rfl⟩

theorem resize_rebuilds_on_fixed_canvas_witness :
    scenarioTree.children ≠ [] ∧
      ∃ s t, run scenarioTree [.click 0] = some s ∧ s.group = some [0] ∧
        resizeTo scenarioTree (800, 400) (some s) = some t ∧
        t.globalRoot.rect = ⟨0, 0, width, height⟩ ∧ t.group = some [] ∧
        t.x = ⟨(0, width), (0, width)⟩ ∧ t.y = ⟨(0, height), (0, height)⟩ := by
  have hroot : scenarioTree.children ≠ [] := List.cons_ne_nil _ _
  obtain ⟨t, ht, _, h2, h3, h4, h5, _⟩ :=
    resize_rebuilds_on_fixed_canvas scenarioTree hroot [.click 0]
      (click (plotTreeMap scenarioTree none) 0) rfl (800, 400)
  exact ⟨hroot, _, t, rfl, by decide!, ht, h2, h3, h4, h5⟩

/-! ## The view: where the children of a node are placed -/

/-- In a tree laid out from records without negative values every box is proper and
the box of a child lies inside the box of its parent. -/
theorem children_inside_of_mem {data : RawRecord} {page : Option View} {n : Node}
    (hdata : data.NonNegative) (hn : n ∈ (plotTreeMap data page).globalRoot.nodes) :
    n.rect.Proper ∧ ∀ c ∈ n.children, c.rect.Proper ∧ c.rect.Inside n.rect := by
  obtain ⟨d, hd, j, r, hr, rfl⟩ := positioned_of_mem_globalRoot hdata hn
  obtain ⟨h1, h2, _, _⟩ := children_positioned_buildNode hd j hr
  refine ⟨by rw [h1]; exact hr, fun c hc => ?_⟩
  rw [h1]
  exact h2 c.rect (List.mem_map_of_mem _ hc)

theorem mem_nodes_of_steady {data : RawRecord} {s : View} (h : s.Steady data) {d : Path}
    {n : Node} (hd : s.globalRoot.descendant? d = some n) :
    n ∈ (plotTreeMap data none).globalRoot.nodes := by
  rw [globalRoot_plotTreeMap, ← h.1]
  exact Node.mem_nodes_of_descendant? d _ _ hd

theorem width_nonneg : (0 : ℚ) ≤ width := by decide!

theorem height_nonneg : (0 : ℚ) ≤ height := by decide!

/-- With no negative value in the records the mappers of a steady view with a layer are
monotone non-decreasing. -/
theorem steady_mono {data : RawRecord} (hdata : data.NonNegative) {s : View}
    (h : s.Steady data) {p : Path} (hg : s.group = some p) :
    (∀ u v : ℚ, u ≤ v → s.x.apply u ≤ s.x.apply v) ∧
      (∀ u v : ℚ, u ≤ v → s.y.apply u ≤ s.y.apply v) := by
  obtain ⟨_, _, g, hgd, _, hx, hy⟩ := h.2.2.2 p hg
  have hproper := (children_inside_of_mem hdata (mem_nodes_of_steady h hgd)).1
  constructor
  · intro u v huv
    refine Scale.apply_mono s.x ?_ ?_ huv
    · rw [hx]; exact hproper.1
    · rw [h.2.1]; exact width_nonneg
  · intro u v huv
    refine Scale.apply_mono s.y ?_ ?_ huv
    · rw [hy]; exact hproper.2
    · rw [h.2.2.1]; exact height_nonneg

/-- A run over a tree in which some node has children leaves a steady view with a layer. -/
theorem steady_layer_of_run {data : RawRecord} {events : List Event} {s : View}
    (hs : run data events = some s) {d : Path} {n : Node}
    (hd : s.globalRoot.descendant? d = some n) (hn : n.children ≠ []) :
    s.Steady data ∧ ∃ p, s.group = some p := by
  obtain ⟨s2, hs2, hsteady⟩ := steady_run data events
  rw [hs] at hs2
  cases hs2
  have hroot : data.children ≠ [] := by
    intro h0
    have hl := length_children_root data
    rw [h0, ← hsteady.1] at hl
    exact children_ne_nil_of_descendant? hd hn (List.length_eq_zero.1 hl)
  obtain ⟨s3, hs3, hg, _⟩ := run_listeners hroot events
  rw [hs] at hs3
  cases hs3
  exact ⟨hsteady, Option.isSome_iff_exists.1 hg⟩

end Treemap
